import Mathlib

/-!
Simplified wavefront "catch game": the board engine of `board.c`.

A shallow embedding of `src/board.c` and of the driver loop of `src/main.c`.

Conventions of the embedding.

* C `int` values are `Int`.  Every value the engine computes is a board
  coordinate, a sum of two coordinate differences or a sample in `{0,1,2,3}`,
  so no arithmetic leaves the `int` range on a board that fits in memory.
* Functions whose C body can leave defined behaviour return `Option`; `none`
  stands for "no defined result": an array access outside the allocated
  object, the use of a local that was never assigned, or, for the sampling
  loop of `move_enemy`, a sample list that is used up before the loop exits.
* `malloc` is taken to succeed; `create_board_alloc` is `create_board` with the
  answers of `malloc` as parameters, for the statements about failed or
  degenerate allocations.
* `rand()` is a list of the raw values it returns, consumed from the head.
* The function-local `static int last_mov` of `move_enemy` is carried next to
  the board in `Game`.
-/

namespace Wavefront

/-! ## Data model -/

/-- The `BOARD_DEFAULT_VALUE` constant of `board.c`: the mark of an empty cell. -/
def BOARD_DEFAULT_VALUE : Char := '.'

/-- The `PLAYER_CHAR` constant of `board.c`. -/
def PLAYER_CHAR : Char := 'C'

/-- The `ENEMY_CHAR` constant of `board.c`. -/
def ENEMY_CHAR : Char := '&'

/-- The `struct Board`.  `matrix` is the `char **matrix` rows: it is allocated by
`create_matrix` as `h` rows of `w` chars, so `matrix[i][j]` is inside the
allocation exactly when `0 <= i < h` and `0 <= j < w`; the function gives the
content of those cells. -/
structure Board where
  w : Int
  h : Int
  player_i : Int
  player_j : Int
  enemy_i : Int
  enemy_j : Int
  matrix : Int → Int → Char

/-- A board together with the `static int last_mov` of `move_enemy`. -/
structure Game where
  board : Board
  last_mov : Int

/-- The local `int pos[board->h][board->w]` of `update_board`: a block of `size`
ints addressed by their offset from the start of the block.  A cell that was
never assigned holds `none`. -/
structure Field where
  size : Int
  cell : Int → Option Int

/-- Store into the block; outside the block there is no defined result. -/
def Field.write (f : Field) (k v : Int) : Option Field :=
  if 0 ≤ k ∧ k < f.size then
    some { f with cell := fun x => if x = k then some v else f.cell x }
  else none

/-- Load from the block; outside the block, or from a cell never assigned, there
is no defined result. -/
def Field.read (f : Field) (k : Int) : Option Int :=
  if 0 ≤ k ∧ k < f.size then f.cell k else none

/-- The offset that `pos[i][j]` denotes inside `wavefront` and `move_player`.
Both declare the parameter as `int pos[board->w][board->h]`, an array of rows
of `board->h` ints, so row `i` starts `i * h` ints into the block, whatever
the row length `board->w` under which `update_board` declared the block. -/
def pos_index (h i j : Int) : Int := i * h + j

/-- The offset of the cell `(i, j)` under the declaration
`int pos[board->h][board->w]` of `update_board`: rows of `board->w` ints. -/
def block_index (w i j : Int) : Int := i * w + j

/-- The assignment `board->matrix[i][j] = c`. -/
def matrix_set (b : Board) (i j : Int) (c : Char) : Option Board :=
  if 0 ≤ i ∧ i < b.h ∧ 0 ≤ j ∧ j < b.w then
    some { b with matrix := fun x y => if x = i ∧ y = j then c else b.matrix x y }
  else none

/-- The function `abs` of `stdlib.h`. -/
def c_abs (x : Int) : Int := (x.natAbs : Int)

/-! ## `create_matrix`, `create_board` -/

/-- The matrix `create_matrix` returns: every allocated cell holds the default
value. -/
def create_matrix (_w _h : Int) (default_value : Char) : Int → Int → Char :=
  fun _ _ => default_value

/-- The function `create_board`. -/
def create_board (w h : Int) : Option Board :=
  let board : Board :=
    { w := w, h := h, player_i := 0, player_j := 0,
      enemy_i := w - 1, enemy_j := h - 1,
      matrix := create_matrix w h BOARD_DEFAULT_VALUE }
  (matrix_set board 0 0 PLAYER_CHAR).bind fun board =>
    matrix_set board (h - 1) (w - 1) ENEMY_CHAR

/-- The state `main` starts from: the new board, and `last_mov` at its
initialiser `2`. -/
def new_game (w h : Int) : Option Game :=
  (create_board w h).map fun b => { board := b, last_mov := 2 }

/-! ## `next2enemy` -/

/-- The function `next2enemy`. -/
def next2enemy (board : Board) : Bool :=
  let dist := c_abs (board.player_i - board.enemy_i) + c_abs (board.player_j - board.enemy_j)
  decide (dist ≤ 1)

/-! ## `wavefront` -/

/-- The inner loop of `wavefront` for row `i`: `n` iterations starting at
column `j`. -/
def wavefront_row (board : Board) (i : Int) : Nat → Int → Field → Option Field
  | 0, _, pos => some pos
  | n + 1, j, pos =>
    (pos.write (pos_index board.h i j)
        (c_abs (board.enemy_i - i) + c_abs (board.enemy_j - j))).bind
      (wavefront_row board i n (j + 1))

/-- The outer loop of `wavefront`: `n` rows starting at row `i`. -/
def wavefront_rows (board : Board) : Nat → Int → Field → Option Field
  | 0, _, pos => some pos
  | n + 1, i, pos =>
    (wavefront_row board i board.w.toNat 0 pos).bind (wavefront_rows board n (i + 1))

/-- The function `wavefront`. -/
def wavefront (board : Board) (pos : Field) : Option Field :=
  wavefront_rows board board.h.toNat 0 pos

/-! ## `move_player` -/

/-- The locals `next_i`, `next_j`, `weight` of `move_player`; `next` is `none`
until the first assignment. -/
structure Pick where
  next : Option (Int × Int)
  weight : Int

/-- One guarded assignment of the scan of `move_player`: the candidate `(i, j)`
is taken when its coordinate `t` passes `t >= 0 && t < board->h` and
`weight == -1 || pos[i][j] < weight`. -/
def consider (h : Int) (pos : Field) (t i j : Int) (st : Pick) : Option Pick :=
  if t ≥ 0 ∧ t < h then
    (pos.read (pos_index h i j)).map fun v =>
      if st.weight = -1 ∨ v < st.weight then { next := some (i, j), weight := v } else st
  else some st

/-- The body of the loop of `move_player` for offset `k`: first the neighbour in
the same row, then the neighbour in the same column. -/
def scan_offset (h : Int) (pos : Field) (curr_i curr_j k : Int) (st : Pick) : Option Pick :=
  (consider h pos (curr_j + k) curr_i (curr_j + k) st).bind fun st =>
    consider h pos (curr_i + k) (curr_i + k) curr_j st

/-- The loop `for(k = -1; k <= 1; k += 2)` of `move_player` and the cell it
leaves in `next_i`, `next_j`. -/
def player_choice (h : Int) (pos : Field) (curr_i curr_j : Int) : Option (Int × Int) :=
  ((scan_offset h pos curr_i curr_j (-1) { next := none, weight := -1 }).bind
    (scan_offset h pos curr_i curr_j 1)).bind fun st => st.next

/-- The function `move_player`. -/
def move_player (board : Board) (pos : Field) : Option Board :=
  let curr_i := board.player_i
  let curr_j := board.player_j
  (player_choice board.h pos curr_i curr_j).bind fun next =>
    (matrix_set board next.1 next.2 PLAYER_CHAR).bind fun board =>
      (matrix_set board curr_i curr_j BOARD_DEFAULT_VALUE).map fun board =>
        { board with player_i := next.1, player_j := next.2 }

/-! ## `move_enemy` -/

/-- One pass through the body of the inner `do` loop of `move_enemy` with sample
`p`: the cell the loop breaks with, or `none` when no `break` is reached. -/
def enemy_try (board : Board) (last_mov p : Int) : Option (Int × Int) :=
  let i := board.enemy_i
  let j := board.enemy_j
  if p = 0 ∧ last_mov ≠ 1 ∧ i - 1 ≥ 0 then some (i - 1, j)
  else if p = 1 ∧ last_mov ≠ 0 ∧ i + 1 < board.h then some (i + 1, j)
  else if p = 2 ∧ last_mov ≠ 3 ∧ j - 1 ≥ 0 then some (i, j - 1)
  else if last_mov ≠ 2 ∧ j + 1 < board.w then some (i, j + 1)
  else none

/-- The four statements of `move_enemy` after `last_mov = p`: mark the new cell,
clear the old one, store the new position. -/
def enemy_place (board : Board) (i j : Int) : Option Board :=
  (matrix_set board i j ENEMY_CHAR).bind fun b =>
    (matrix_set b board.enemy_i board.enemy_j BOARD_DEFAULT_VALUE).map fun b =>
      { b with enemy_i := i, enemy_j := j }

/-- One pass through the body of the outer `do` loop of `move_enemy` whose inner
loop breaks at sample `p`. -/
def enemy_step (g : Game) (p : Int) : Option Game :=
  (enemy_try g.board g.last_mov p).bind fun c =>
    (enemy_place g.board c.1 c.2).map fun b => { board := b, last_mov := p }

/-- The function `move_enemy`, run on the raw values `rand()` returns.  A sample
that reaches no `break` is dropped and the next one is drawn; after a step the
outer loop goes on while `next2enemy(board)` holds.  The result carries the
samples not consumed. -/
def move_enemy : Game → List Nat → Option (Game × List Nat)
  | _, [] => none
  | g, r :: rs =>
    let p : Int := ((r % 4 : Nat) : Int)
    match enemy_try g.board g.last_mov p with
    | none => move_enemy g rs
    | some c =>
      match enemy_place g.board c.1 c.2 with
      | none => none
      | some b =>
        if next2enemy b then move_enemy { board := b, last_mov := p } rs
        else some ({ board := b, last_mov := p }, rs)

/-! ## `update_board` and the driver loop -/

/-- The block `int pos[board->h][board->w]` as `update_board` declares it:
`h * w` ints, none assigned. -/
def fresh_field (board : Board) : Field :=
  { size := board.h * board.w, cell := fun _ => none }

/-- The function `update_board`. -/
def update_board (g : Game) (rs : List Nat) : Option (Game × List Nat) :=
  (wavefront g.board (fresh_field g.board)).bind fun pos =>
    (move_enemy g rs).bind fun (g1, rs1) =>
      (move_player g1.board pos).map fun b => ({ board := b, last_mov := g1.last_mov }, rs1)

/-- The states the loop `while(!next2enemy(board)) update_board(board)` of
`main` passes through on a `w` by `h` board. -/
inductive Reachable (w h : Int) : Game → Prop
  | start (g : Game) : new_game w h = some g → Reachable w h g
  | tick (g g1 : Game) (rs rs1 : List Nat) :
      Reachable w h g → next2enemy g.board = false →
      update_board g rs = some (g1, rs1) → Reachable w h g1

/-- The first `n` passes of the loop of `main`; it stops early once
`next2enemy` holds. -/
def play : Nat → Game → List Nat → Option (Game × List Nat)
  | 0, g, rs => some (g, rs)
  | n + 1, g, rs =>
    if next2enemy g.board then some (g, rs)
    else (update_board g rs).bind fun (g1, rs1) => play n g1 rs1

/-! ## Vocabulary of the statements -/

/-- The cell `(i, j)` lies on the board: `0 <= i < h` and `0 <= j < w`. -/
def in_board (b : Board) (i j : Int) : Prop :=
  0 ≤ i ∧ i < b.h ∧ 0 ≤ j ∧ j < b.w

instance (b : Board) (i j : Int) : Decidable (in_board b i j) := by
  unfold in_board; infer_instance

/-- The value `pos[i][j]` as `move_player` reads it. -/
def field_at (b : Board) (pos : Field) (i j : Int) : Option Int :=
  pos.read (pos_index b.h i j)

/-- Manhattan distance between two cells. -/
def manhattan (i j i1 j1 : Int) : Int := c_abs (i - i1) + c_abs (j - j1)

/-- The block after a store of `v` at offset `k`. -/
def Field.put (f : Field) (k v : Int) : Field :=
  { size := f.size, cell := fun x => if x = k then some v else f.cell x }

/-- The cells `wavefront` has dealt with when it is about to assign `pos[i][j]`,
restricted to the columns below `h`, hold their Manhattan distance to the
enemy. -/
def filled (b : Board) (pos : Field) (i j : Int) : Prop :=
  pos.size = b.h * b.w ∧
    ∀ i1 j1 : Int, 0 ≤ i1 → 0 ≤ j1 → j1 < b.h → (i1 < i ∨ (i1 = i ∧ j1 < j)) →
      pos.cell (pos_index b.h i1 j1) = some (manhattan b.enemy_i b.enemy_j i1 j1)

/-- The four neighbours of `(i, j)` in the order in which the loop of
`move_player` visits them: for `k = -1` the cell `(i, j + k)` then `(i + k, j)`,
and the same for `k = 1`. -/
def scan_order (i j : Int) : List (Int × Int) :=
  [(i, j - 1), (i - 1, j), (i, j + 1), (i + 1, j)]

/-- The neighbours of the player that lie on the board, in scan order. -/
def neighbours (b : Board) : List (Int × Int) :=
  (scan_order b.player_i b.player_j).filter fun c => decide (in_board b c.1 c.2)

/-- In the list `l` the cell `c` is the first one of minimal value: every cell
before it has a larger value, no cell after it has a smaller one. -/
def first_min (val : Int × Int → Int) (l : List (Int × Int)) (c : Int × Int) : Prop :=
  ∃ l1 l2, l = l1 ++ c :: l2 ∧ (∀ x ∈ l1, val c < val x) ∧ (∀ x ∈ l2, val c ≤ val x)

/-- The locals of `move_player` after the candidates `seen` have been visited. -/
def scanned (val : Int × Int → Int) (seen : List (Int × Int)) (st : Pick) : Prop :=
  (seen = [] ∧ st.next = none ∧ st.weight = -1) ∨
    ∃ c, st.next = some c ∧ st.weight = val c ∧ 0 ≤ val c ∧ first_min val seen c

/-- A 3 wide, 2 high board with the player at `(0, 1)` and the enemy at `(1, 0)`. -/
def board_3x2 : Board :=
  { w := 3, h := 2, player_i := 0, player_j := 1, enemy_i := 1, enemy_j := 0,
    matrix := fun i j =>
      if i = 0 ∧ j = 1 then PLAYER_CHAR else if i = 1 ∧ j = 0 then ENEMY_CHAR
      else BOARD_DEFAULT_VALUE }

/-- A block of 6 ints holding `5` everywhere except `0` at offset `2`. -/
def field_3x2 : Field :=
  { size := 6, cell := fun k => some (if k = 2 then 0 else 5) }

/-- A 3 by 3 board with the player in the middle and the enemy at `(0, 0)`. -/
def board_3x3 : Board :=
  { w := 3, h := 3, player_i := 1, player_j := 1, enemy_i := 0, enemy_j := 0,
    matrix := fun i j =>
      if i = 1 ∧ j = 1 then PLAYER_CHAR else if i = 0 ∧ j = 0 then ENEMY_CHAR
      else BOARD_DEFAULT_VALUE }

/-- A block of 9 ints in which the cell at offset `k` holds `k`. -/
def field_3x3 : Field :=
  { size := 9, cell := fun k => some k }

/-- The direction of a unit move from `(i, j)` to `(i1, j1)` in the numbering of
`move_enemy`: 0 North, 1 South, 2 West, 3 East. -/
def move_dir (i j i1 j1 : Int) : Option Int :=
  if i1 = i - 1 ∧ j1 = j then some 0
  else if i1 = i + 1 ∧ j1 = j then some 1
  else if i1 = i ∧ j1 = j - 1 then some 2
  else if i1 = i ∧ j1 = j + 1 then some 3
  else none

/-- The enemy cell of a game. -/
def enemy_cell (g : Game) : Int × Int := (g.board.enemy_i, g.board.enemy_j)

/-- The player cell of a game. -/
def player_cell (g : Game) : Int × Int := (g.board.player_i, g.board.player_j)

/-- The 2 by 2 board in its start position: player at `(0, 0)`, enemy at `(1, 1)`. -/
def board_2x2 : Board :=
  { w := 2, h := 2, player_i := 0, player_j := 0, enemy_i := 1, enemy_j := 1,
    matrix := fun i j =>
      if i = 0 ∧ j = 0 then PLAYER_CHAR else if i = 1 ∧ j = 1 then ENEMY_CHAR
      else BOARD_DEFAULT_VALUE }

/-- The game on `board_2x2` before the first call of `move_enemy`. -/
def game_2x2 : Game := { board := board_2x2, last_mov := 2 }

/-- The occupancy of the matrix agrees with the positions: player and enemy
stand on different cells, the player's cell holds the Player mark, the enemy's
cell the Enemy mark, and every other cell of the board is empty. -/
def occupancy_ok (b : Board) : Prop :=
  ¬ (b.player_i = b.enemy_i ∧ b.player_j = b.enemy_j) ∧
    ∀ i j, in_board b i j → b.matrix i j =
      if i = b.player_i ∧ j = b.player_j then PLAYER_CHAR
      else if i = b.enemy_i ∧ j = b.enemy_j then ENEMY_CHAR else BOARD_DEFAULT_VALUE

/-- The occupancy while `move_enemy` runs: away from the player's cell, the
enemy's cell holds the Enemy mark and every other cell is empty. -/
def enemy_marked (b : Board) : Prop :=
  ∀ i j, in_board b i j → ¬ (i = b.player_i ∧ j = b.player_j) →
    b.matrix i j = if i = b.enemy_i ∧ j = b.enemy_j then ENEMY_CHAR else BOARD_DEFAULT_VALUE

/-- The walks `move_enemy` can make the enemy take while the player stands on
`(pi, pj)`: one or more steps, each to a cell at Manhattan distance 1 from the
cell before; after a step that leaves the enemy within distance 1 of the player
another step follows, after a step that leaves it farther away the walk ends. -/
inductive enemy_walk (pi pj : Int) : Int × Int → Int × Int → Prop
  | last (c d : Int × Int) :
      manhattan c.1 c.2 d.1 d.2 = 1 → 1 < manhattan pi pj d.1 d.2 → enemy_walk pi pj c d
  | more (c d e : Int × Int) :
      manhattan c.1 c.2 d.1 d.2 = 1 → manhattan pi pj d.1 d.2 ≤ 1 →
      enemy_walk pi pj d e → enemy_walk pi pj c e

/-- A board of one cell, with player and enemy on it. -/
def board_1x1 : Board :=
  { w := 1, h := 1, player_i := 0, player_j := 0, enemy_i := 0, enemy_j := 0,
    matrix := fun _ _ => ENEMY_CHAR }

/-- What a call that returns a pointer ends in: a pointer to a finished object,
the null pointer, or no defined result. -/
inductive Outcome (α : Type) where
  | object (a : α)
  | null
  | undefined

/-- The function `create_matrix` with the allocator made explicit: `rows_ok h`
tells whether `malloc(sizeof(char*) * h)` returns a block, `row_ok i w` whether
the `malloc(sizeof(char) * w)` for row `i` does.  With `h < 0` the first loop
does not run, `i != h` holds, and the clean-up loop frees `m[0]`, which was
never assigned.  With `h > 0` a refused row ends the loop early, the rows
allocated so far are freed and the result is `NULL`. -/
def create_matrix_alloc (rows_ok : Int → Bool) (row_ok : Nat → Int → Bool) (w h : Int)
    (default_value : Char) : Outcome (Int → Int → Char) :=
  if rows_ok h = false then Outcome.null
  else if h < 0 then Outcome.undefined
  else if (List.range h.toNat).all (fun i => row_ok i w) then
    Outcome.object (create_matrix w h default_value)
  else Outcome.null

/-- The function `create_board` with the allocator made explicit: `board_ok`
tells whether `malloc(sizeof(Board))` returns a block.  The function tests its
pointers and nothing else. -/
def create_board_alloc (board_ok : Bool) (rows_ok : Int → Bool) (row_ok : Nat → Int → Bool)
    (w h : Int) : Outcome Board :=
  if board_ok = false then Outcome.null
  else
    match create_matrix_alloc rows_ok row_ok w h BOARD_DEFAULT_VALUE with
    | Outcome.null => Outcome.null
    | Outcome.undefined => Outcome.undefined
    | Outcome.object m =>
      let board : Board :=
        { w := w, h := h, player_i := 0, player_j := 0,
          enemy_i := w - 1, enemy_j := h - 1, matrix := m }
      match (matrix_set board 0 0 PLAYER_CHAR).bind fun board =>
          matrix_set board (h - 1) (w - 1) ENEMY_CHAR with
      | some board => Outcome.object board
      | none => Outcome.undefined

/-- The outcome is the null pointer. -/
def Outcome.is_null {α : Type} : Outcome α → Bool
  | Outcome.null => true
  | _ => false

/-- The outcome is outside defined behaviour. -/
def Outcome.is_undefined {α : Type} : Outcome α → Bool
  | Outcome.undefined => true
  | _ => false

/-! ## Basic facts about the assignments to the board -/

theorem matrix_set_some {b b1 : Board} {i j : Int} {c : Char} (hs : matrix_set b i j c = some b1) :
    in_board b i j ∧
      b1 = { b with matrix := fun x y => if x = i ∧ y = j then c else b.matrix x y } := by
  unfold matrix_set at hs
  split at hs
  · rename_i hb
    exact ⟨hb, (Option.some.inj hs).symm⟩
  · exact absurd hs (by simp)

theorem matrix_set_of_in_board {b : Board} {i j : Int} (c : Char) (hb : in_board b i j) :
    matrix_set b i j c =
      some { b with matrix := fun x y => if x = i ∧ y = j then c else b.matrix x y } := by
  unfold matrix_set
  exact if_pos hb

theorem enemy_try_in_board {b : Board} {lm p : Int} {c : Int × Int}
    (he : in_board b b.enemy_i b.enemy_j) (ht : enemy_try b lm p = some c) :
    in_board b c.1 c.2 := by
  unfold in_board at he ⊢
  unfold enemy_try at ht
  simp only at ht
  split_ifs at ht with h0 h1 h2 h3 <;> cases ht <;> simp only <;> omega

theorem enemy_place_of_in_board {b : Board} {i j : Int}
    (he : in_board b b.enemy_i b.enemy_j) (hc : in_board b i j) :
    enemy_place b i j =
      some { b with
        matrix := fun x y =>
          if x = b.enemy_i ∧ y = b.enemy_j then BOARD_DEFAULT_VALUE
          else if x = i ∧ y = j then ENEMY_CHAR else b.matrix x y,
        enemy_i := i, enemy_j := j } := by
  unfold enemy_place
  rw [matrix_set_of_in_board _ hc]
  simp only [Option.some_bind]
  rw [matrix_set_of_in_board _ (by exact he)]
  simp

theorem enemy_place_some {b b1 : Board} {i j : Int} (hs : enemy_place b i j = some b1) :
    b1.w = b.w ∧ b1.h = b.h ∧ b1.player_i = b.player_i ∧ b1.player_j = b.player_j ∧
      b1.enemy_i = i ∧ b1.enemy_j = j := by
  unfold enemy_place at hs
  cases h1 : matrix_set b i j ENEMY_CHAR with
  | none => simp [h1] at hs
  | some b2 =>
    simp only [h1, Option.some_bind] at hs
    cases h2 : matrix_set b2 b.enemy_i b.enemy_j BOARD_DEFAULT_VALUE with
    | none => simp [h2] at hs
    | some b3 =>
      simp only [h2, Option.map_some'] at hs
      have e1 := (matrix_set_some h1).2
      have e2 := (matrix_set_some h2).2
      subst e1 e2
      cases hs
      simp

/-! ## Basic facts about `move_player` and `move_enemy` -/

theorem move_player_of_choice {b : Board} {pos : Field} {n : Int × Int}
    (hc : player_choice b.h pos b.player_i b.player_j = some n)
    (hn : in_board b n.1 n.2) (hp : in_board b b.player_i b.player_j) :
    move_player b pos =
      some { b with
        matrix := fun x y =>
          if x = b.player_i ∧ y = b.player_j then BOARD_DEFAULT_VALUE
          else if x = n.1 ∧ y = n.2 then PLAYER_CHAR else b.matrix x y,
        player_i := n.1, player_j := n.2 } := by
  unfold move_player
  simp only [hc, Option.some_bind]
  rw [matrix_set_of_in_board _ hn]
  simp only [Option.some_bind]
  rw [matrix_set_of_in_board _ (by exact hp)]
  simp

theorem move_player_some {b b1 : Board} {pos : Field} (hs : move_player b pos = some b1) :
    player_choice b.h pos b.player_i b.player_j = some (b1.player_i, b1.player_j) ∧
      in_board b b1.player_i b1.player_j ∧ in_board b b.player_i b.player_j ∧
      b1.w = b.w ∧ b1.h = b.h ∧ b1.enemy_i = b.enemy_i ∧ b1.enemy_j = b.enemy_j := by
  unfold move_player at hs
  simp only at hs
  cases hc : player_choice b.h pos b.player_i b.player_j with
  | none => simp [hc] at hs
  | some n =>
    simp only [hc, Option.some_bind] at hs
    cases h1 : matrix_set b n.1 n.2 PLAYER_CHAR with
    | none => simp [h1] at hs
    | some b2 =>
      simp only [h1, Option.some_bind] at hs
      cases h2 : matrix_set b2 b.player_i b.player_j BOARD_DEFAULT_VALUE with
      | none => simp [h2] at hs
      | some b3 =>
        simp only [h2, Option.map_some'] at hs
        obtain ⟨i1, e1⟩ := matrix_set_some h1
        obtain ⟨i2, e2⟩ := matrix_set_some h2
        subst e1 e2
        cases hs
        exact ⟨rfl, i1, i2, rfl, rfl, rfl, rfl⟩

/-- What `move_enemy` leaves behind when it returns: the dimensions and the
player are untouched, `next2enemy` is false, and an enemy that was on the board
is still on it. -/
theorem move_enemy_some (rs : List Nat) :
    ∀ (g g1 : Game) (rs1 : List Nat), move_enemy g rs = some (g1, rs1) →
      g1.board.w = g.board.w ∧ g1.board.h = g.board.h ∧
        g1.board.player_i = g.board.player_i ∧ g1.board.player_j = g.board.player_j ∧
        next2enemy g1.board = false ∧
        (in_board g.board g.board.enemy_i g.board.enemy_j →
          in_board g1.board g1.board.enemy_i g1.board.enemy_j) := by
  induction rs with
  | nil => intro g g1 rs1 hm; simp [move_enemy] at hm
  | cons r rs ih =>
    intro g g1 rs1 hm
    unfold move_enemy at hm
    simp only at hm
    cases ht : enemy_try g.board g.last_mov ((r % 4 : Nat) : Int) with
    | none =>
      rw [ht] at hm
      exact ih g g1 rs1 hm
    | some c =>
      rw [ht] at hm
      simp only at hm
      cases hp : enemy_place g.board c.1 c.2 with
      | none => rw [hp] at hm; simp at hm
      | some b =>
        rw [hp] at hm
        simp only at hm
        obtain ⟨q1, q2, q3, q4, q5, q6⟩ := enemy_place_some hp
        have hb : in_board g.board g.board.enemy_i g.board.enemy_j →
            in_board b b.enemy_i b.enemy_j := by
          intro he
          have hc := enemy_try_in_board he ht
          unfold in_board at hc ⊢
          rw [q1, q2, q5, q6]; exact hc
        by_cases hn : next2enemy b = true
        · rw [if_pos hn] at hm
          have := ih { board := b, last_mov := ((r % 4 : Nat) : Int) } g1 rs1 hm
          simp only at this
          rw [q1, q2, q3, q4] at this
          obtain ⟨p1, p2, p3, p4, p5, p6⟩ := this
          exact ⟨p1, p2, p3, p4, p5, fun he => p6 (hb he)⟩
        · rw [if_neg hn] at hm
          cases hm
          simp only
          exact ⟨q1, q2, q3, q4, by simpa using hn, hb⟩

/-- The first two effects of `update_board` do not depend on each other: the
field is computed from the board before `move_enemy` runs. -/
theorem update_board_some {g g1 : Game} {rs rs1 : List Nat}
    (hu : update_board g rs = some (g1, rs1)) :
    ∃ pos g2, wavefront g.board (fresh_field g.board) = some pos ∧
      move_enemy g rs = some (g2, rs1) ∧ move_player g2.board pos = some g1.board ∧
      g1.last_mov = g2.last_mov := by
  unfold update_board at hu
  cases hw : wavefront g.board (fresh_field g.board) with
  | none => simp [hw] at hu
  | some pos =>
    simp only [hw, Option.some_bind] at hu
    cases hm : move_enemy g rs with
    | none => simp [hm] at hu
    | some x =>
      obtain ⟨g2, rs2⟩ := x
      simp only [hm, Option.some_bind] at hu
      cases hp : move_player g2.board pos with
      | none => simp [hp] at hu
      | some b =>
        simp only [hp, Option.map_some'] at hu
        cases hu
        exact ⟨pos, g2, rfl, rfl, hp, rfl⟩

/-! ## The field `wavefront` leaves on a board that is at least as wide as high -/

theorem Field.write_of_lt {f : Field} {k : Int} (v : Int) (h0 : 0 ≤ k) (h1 : k < f.size) :
    f.write k v = some (f.put k v) := by
  unfold Field.write Field.put
  exact if_pos ⟨h0, h1⟩

theorem pos_index_lt {h w i j : Int} (hi : 0 ≤ i) (hih : i < h) (hj : j < w) (hw : h ≤ w) :
    pos_index h i j < h * w := by
  unfold pos_index
  have h1 : i * h ≤ (h - 1) * h := mul_le_mul_of_nonneg_right (by omega) (by omega)
  have h2 : (h - 1) * h ≤ (h - 1) * w := mul_le_mul_of_nonneg_left hw (by omega)
  nlinarith

theorem pos_index_nonneg {h i j : Int} (hi : 0 ≤ i) (hh : 0 ≤ h) (hj : 0 ≤ j) :
    0 ≤ pos_index h i j := by
  unfold pos_index
  have := mul_nonneg hi hh
  omega

theorem pos_index_ne {h i j i1 j1 : Int} (hlt : i1 < i) (hj : 0 ≤ j) (hj1 : j1 < h)
    (hh : 0 ≤ h) : pos_index h i1 j1 ≠ pos_index h i j := by
  unfold pos_index
  have h1 : (i1 + 1) * h ≤ i * h := mul_le_mul_of_nonneg_right (by omega) hh
  intro he
  nlinarith

theorem wavefront_row_filled (b : Board) (i : Int) (hw : b.h ≤ b.w) (hi : 0 ≤ i)
    (hih : i < b.h) :
    ∀ (n : Nat) (j : Int) (pos : Field), 0 ≤ j → j + n ≤ b.w → filled b pos i j →
      ∃ pos1, wavefront_row b i n j pos = some pos1 ∧ filled b pos1 i (j + n) := by
  intro n
  induction n with
  | zero =>
    intro j pos _ _ hf
    exact ⟨pos, rfl, by simpa using hf⟩
  | succ n ih =>
    intro j pos hj hjn hf
    obtain ⟨hsz, hcell⟩ := hf
    have hk1 : 0 ≤ pos_index b.h i j := pos_index_nonneg hi (by omega) hj
    have hk2 : pos_index b.h i j < pos.size := by
      rw [hsz]
      exact pos_index_lt hi hih (by push_cast at hjn; omega) hw
    have hwr := Field.write_of_lt (c_abs (b.enemy_i - i) + c_abs (b.enemy_j - j)) hk1 hk2
    have hf1 : filled b (pos.put (pos_index b.h i j)
        (c_abs (b.enemy_i - i) + c_abs (b.enemy_j - j))) i (j + 1) := by
      refine ⟨hsz, ?_⟩
      intro i1 j1 hi1 hj1 hj1h hbefore
      simp only [Field.put]
      by_cases hsame : i1 = i ∧ j1 = j
      · obtain ⟨e1, e2⟩ := hsame
        subst e1 e2
        simp [manhattan]
      · have hne : pos_index b.h i1 j1 ≠ pos_index b.h i j := by
          rcases hbefore with hlt | ⟨he, hlt⟩
          · exact pos_index_ne hlt hj hj1h (by omega)
          · subst he
            unfold pos_index
            omega
        rw [if_neg hne]
        apply hcell i1 j1 hi1 hj1 hj1h
        rcases hbefore with hlt | ⟨he, hlt⟩
        · exact Or.inl hlt
        · exact Or.inr ⟨he, by omega⟩
    obtain ⟨pos1, hr, hfin⟩ := ih (j + 1) _ (by omega) (by push_cast at hjn ⊢; omega) hf1
    refine ⟨pos1, ?_, ?_⟩
    · unfold wavefront_row
      rw [hwr]
      exact hr
    · have e : j + ((n + 1 : Nat) : Int) = j + 1 + (n : Int) := by push_cast; ring
      rw [e]
      exact hfin

theorem wavefront_rows_filled (b : Board) (hw : b.h ≤ b.w) :
    ∀ (n : Nat) (i : Int) (pos : Field), 0 ≤ i → i + n ≤ b.h → filled b pos i 0 →
      ∃ pos1, wavefront_rows b n i pos = some pos1 ∧ filled b pos1 (i + n) 0 := by
  intro n
  induction n with
  | zero =>
    intro i pos _ _ hf
    exact ⟨pos, rfl, by simpa using hf⟩
  | succ n ih =>
    intro i pos hi hin hf
    have hih : i < b.h := by push_cast at hin; omega
    have hwpos : (0 : Int) + (b.w.toNat : Int) ≤ b.w := by
      rw [Int.toNat_of_nonneg (by omega)]; omega
    obtain ⟨pos1, hr, hf1⟩ := wavefront_row_filled b i hw hi hih b.w.toNat 0 pos le_rfl hwpos hf
    have hf2 : filled b pos1 (i + 1) 0 := by
      obtain ⟨hsz, hcell⟩ := hf1
      refine ⟨hsz, ?_⟩
      intro i1 j1 hi1 hj1 hj1h hbefore
      apply hcell i1 j1 hi1 hj1 hj1h
      rw [Int.toNat_of_nonneg (by omega)]
      rcases hbefore with hlt | ⟨_, hlt⟩
      · by_cases he : i1 = i
        · exact Or.inr ⟨he, by omega⟩
        · exact Or.inl (by omega)
      · omega
    obtain ⟨pos2, hr2, hfin⟩ := ih (i + 1) pos1 (by omega) (by push_cast at hin ⊢; omega) hf2
    refine ⟨pos2, ?_, ?_⟩
    · unfold wavefront_rows
      rw [hr]
      exact hr2
    · have e : i + ((n + 1 : Nat) : Int) = i + 1 + (n : Int) := by push_cast; ring
      rw [e]
      exact hfin

/-- On a board with `0 < h <= w` the call `wavefront(board, pos)` of `update_board`
stays inside the block, and afterwards `pos[i][j]` holds the Manhattan distance
from `(i, j)` to the enemy for every row `i < h` and every column `j < h`. -/
theorem wavefront_field (b : Board) (hh : 0 < b.h) (hw : b.h ≤ b.w) :
    ∃ pos, wavefront b (fresh_field b) = some pos ∧
      ∀ i j : Int, 0 ≤ i → i < b.h → 0 ≤ j → j < b.h →
        field_at b pos i j = some (manhattan b.enemy_i b.enemy_j i j) := by
  have h0 : filled b (fresh_field b) 0 0 := by
    refine ⟨rfl, ?_⟩
    intro i1 j1 hi1 hj1 _ hbefore
    omega
  have hn : (0 : Int) + (b.h.toNat : Int) ≤ b.h := by
    rw [Int.toNat_of_nonneg (by omega)]; omega
  obtain ⟨pos, hr, hsz, hcell⟩ := wavefront_rows_filled b hw b.h.toNat 0 _ le_rfl hn h0
  refine ⟨pos, hr, ?_⟩
  intro i j hi hih hj hjh
  unfold field_at Field.read
  rw [if_pos ⟨pos_index_nonneg hi (by omega) hj, by
    rw [hsz]; exact pos_index_lt hi hih (by omega) hw⟩]
  apply hcell i j hi hj hjh
  rw [Int.toNat_of_nonneg (by omega)]
  exact Or.inl (by omega)

/-! ## The scan of `move_player` -/

theorem consider_scanned (b : Board) (pos : Field) (val : Int × Int → Int) (t i j : Int)
    (st : Pick) (seen : List (Int × Int))
    (hiff : (t ≥ 0 ∧ t < b.h) ↔ in_board b i j)
    (hval : in_board b i j → field_at b pos i j = some (val (i, j)) ∧ 0 ≤ val (i, j))
    (hs : scanned val seen st) :
    ∃ st1, consider b.h pos t i j st = some st1 ∧
      scanned val (seen ++ if in_board b i j then [(i, j)] else []) st1 := by
  by_cases hin : in_board b i j
  · obtain ⟨hv, hv0⟩ := hval hin
    unfold field_at at hv
    unfold consider
    rw [if_pos (hiff.mpr hin), hv, if_pos hin]
    simp only [Option.map_some']
    rcases hs with ⟨e1, _, e3⟩ | ⟨c, e1, e2, e3, l1, l2, e4, e5, e6⟩
    · refine ⟨_, rfl, Or.inr ⟨(i, j), ?_, ?_, hv0, [], [], ?_, ?_, ?_⟩⟩
      · rw [if_pos (Or.inl e3)]
      · rw [if_pos (Or.inl e3)]
      · rw [e1]
      · intro x hx; cases hx
      · intro x hx; cases hx
    · by_cases hlt : val (i, j) < st.weight
      · refine ⟨_, rfl, Or.inr ⟨(i, j), ?_, ?_, hv0, seen, [], rfl, ?_, ?_⟩⟩
        · rw [if_pos (Or.inr hlt)]
        · rw [if_pos (Or.inr hlt)]
        · intro x hx
          rw [e2] at hlt
          rw [e4] at hx
          rcases List.mem_append.mp hx with h1 | h1
          · exact lt_trans hlt (e5 x h1)
          · rcases List.mem_cons.mp h1 with h2 | h2
            · rw [h2]; exact hlt
            · exact lt_of_lt_of_le hlt (e6 x h2)
        · intro x hx; cases hx
      · have hne : ¬ (st.weight = -1 ∨ val (i, j) < st.weight) := by
          rintro (h1 | h1)
          · omega
          · exact hlt h1
        refine ⟨_, rfl, Or.inr ⟨c, ?_, ?_, e3, l1, l2 ++ [(i, j)], ?_, e5, ?_⟩⟩
        · rw [if_neg hne]; exact e1
        · rw [if_neg hne]; exact e2
        · rw [e4]; simp
        · intro x hx
          rcases List.mem_append.mp hx with h1 | h1
          · exact e6 x h1
          · rw [List.mem_singleton.mp h1]; omega
  · unfold consider
    rw [if_neg (fun h => hin (hiff.mp h)), if_neg hin]
    exact ⟨st, rfl, by simpa using hs⟩

/-- On a square board the scan of `move_player` ends with the first cell of
minimal value among the neighbours on the board, when there is one. -/
theorem player_choice_scanned (b : Board) (pos : Field) (val : Int × Int → Int)
    (hsq : b.w = b.h) (hp : in_board b b.player_i b.player_j)
    (hval : ∀ i j, in_board b i j → field_at b pos i j = some (val (i, j)) ∧ 0 ≤ val (i, j)) :
    ∃ st, player_choice b.h pos b.player_i b.player_j = st.next ∧
      scanned val (neighbours b) st := by
  have hp1 := hp
  unfold in_board at hp1
  have s0 : scanned val [] { next := none, weight := -1 } := Or.inl ⟨rfl, rfl, rfl⟩
  obtain ⟨st1, c1, s1⟩ := consider_scanned b pos val (b.player_j + -1) b.player_i
    (b.player_j + -1) _ _ (by unfold in_board; omega) (hval _ _) s0
  obtain ⟨st2, c2, s2⟩ := consider_scanned b pos val (b.player_i + -1) (b.player_i + -1)
    b.player_j _ _ (by unfold in_board; omega) (hval _ _) s1
  obtain ⟨st3, c3, s3⟩ := consider_scanned b pos val (b.player_j + 1) b.player_i
    (b.player_j + 1) _ _ (by unfold in_board; omega) (hval _ _) s2
  obtain ⟨st4, c4, s4⟩ := consider_scanned b pos val (b.player_i + 1) (b.player_i + 1)
    b.player_j _ _ (by unfold in_board; omega) (hval _ _) s3
  refine ⟨st4, ?_, ?_⟩
  · unfold player_choice scan_offset
    simp [c1, c2, c3, c4]
  · have e : neighbours b =
        ((([] ++ if in_board b b.player_i (b.player_j + -1) then [(b.player_i, b.player_j + -1)]
              else []) ++
            if in_board b (b.player_i + -1) b.player_j then [(b.player_i + -1, b.player_j)]
              else []) ++
          if in_board b b.player_i (b.player_j + 1) then [(b.player_i, b.player_j + 1)]
            else []) ++
        if in_board b (b.player_i + 1) b.player_j then [(b.player_i + 1, b.player_j)] else [] := by
      unfold neighbours scan_order
      have e1 : b.player_j - 1 = b.player_j + -1 := by ring
      have e2 : b.player_i - 1 = b.player_i + -1 := by ring
      rw [e1, e2]
      by_cases h1 : in_board b b.player_i (b.player_j + -1) <;>
        by_cases h2 : in_board b (b.player_i + -1) b.player_j <;>
        by_cases h3 : in_board b b.player_i (b.player_j + 1) <;>
        by_cases h4 : in_board b (b.player_i + 1) b.player_j <;>
        simp [List.filter, h1, h2, h3, h4]
    rw [e]
    exact s4

theorem neighbours_ne_nil (b : Board) (hsq : b.w = b.h) (h2 : 2 ≤ b.h)
    (hp : in_board b b.player_i b.player_j) : neighbours b ≠ [] := by
  unfold in_board at hp
  unfold neighbours scan_order
  by_cases h0 : 1 ≤ b.player_j
  · have hin : in_board b b.player_i (b.player_j - 1) := by unfold in_board; omega
    simp [List.filter, hin]
  · have hin : in_board b b.player_i (b.player_j + 1) := by unfold in_board; omega
    intro hnil
    have hmem : (b.player_i, b.player_j + 1) ∈
        List.filter (fun c => decide (in_board b c.1 c.2))
          [(b.player_i, b.player_j - 1), (b.player_i - 1, b.player_j),
            (b.player_i, b.player_j + 1), (b.player_i + 1, b.player_j)] := by
      rw [List.mem_filter]
      exact ⟨by simp, by simpa using hin⟩
    rw [hnil] at hmem
    cases hmem

/-! ## The start state -/

theorem create_board_some {w h : Int} {b : Board} (hc : create_board w h = some b) :
    b.w = w ∧ b.h = h ∧ b.player_i = 0 ∧ b.player_j = 0 ∧ b.enemy_i = w - 1 ∧
      b.enemy_j = h - 1 := by
  unfold create_board at hc
  simp only at hc
  cases h1 : matrix_set
      { w := w, h := h, player_i := 0, player_j := 0, enemy_i := w - 1, enemy_j := h - 1,
        matrix := create_matrix w h BOARD_DEFAULT_VALUE } 0 0 PLAYER_CHAR with
  | none => simp [h1] at hc
  | some b2 =>
    simp only [h1, Option.some_bind] at hc
    have e1 := (matrix_set_some h1).2
    have e2 := (matrix_set_some hc).2
    subst e1 e2
    simp

theorem start_choice_2x2 :
    ((create_board 2 2).bind fun b =>
      (wavefront b (fresh_field b)).bind fun pos => player_choice 2 pos 0 0) = some (0, 1) := by
  decide

/-! ## Square boards: positions and occupancy along the driver loop -/

theorem create_board_matrix {w h : Int} {b : Board} (hc : create_board w h = some b) :
    in_board b 0 0 ∧ in_board b (h - 1) (w - 1) ∧
      ∀ i j, b.matrix i j =
        if i = h - 1 ∧ j = w - 1 then ENEMY_CHAR
        else if i = 0 ∧ j = 0 then PLAYER_CHAR else BOARD_DEFAULT_VALUE := by
  unfold create_board at hc
  simp only at hc
  cases h1 : matrix_set
      { w := w, h := h, player_i := 0, player_j := 0, enemy_i := w - 1, enemy_j := h - 1,
        matrix := create_matrix w h BOARD_DEFAULT_VALUE } 0 0 PLAYER_CHAR with
  | none => simp [h1] at hc
  | some b2 =>
    simp only [h1, Option.some_bind] at hc
    obtain ⟨i1, e1⟩ := matrix_set_some h1
    obtain ⟨i2, e2⟩ := matrix_set_some hc
    subst e1 e2
    exact ⟨i1, i2, fun i j => rfl⟩

theorem enemy_try_adjacent {b : Board} {lm p : Int} {c : Int × Int}
    (ht : enemy_try b lm p = some c) :
    (c.1 = b.enemy_i - 1 ∧ c.2 = b.enemy_j) ∨ (c.1 = b.enemy_i + 1 ∧ c.2 = b.enemy_j) ∨
      (c.1 = b.enemy_i ∧ c.2 = b.enemy_j - 1) ∨ (c.1 = b.enemy_i ∧ c.2 = b.enemy_j + 1) := by
  unfold enemy_try at ht
  simp only at ht
  split_ifs at ht <;> cases ht <;> simp

theorem enemy_place_marked {b b1 : Board} {lm p : Int} {c : Int × Int}
    (he : in_board b b.enemy_i b.enemy_j) (ht : enemy_try b lm p = some c)
    (hp : enemy_place b c.1 c.2 = some b1) (hm : enemy_marked b) : enemy_marked b1 := by
  have hc := enemy_try_in_board he ht
  have hadj := enemy_try_adjacent ht
  have e := Option.some.inj ((enemy_place_of_in_board he hc).symm.trans hp)
  subst e
  intro i j hin hnp
  simp only at hnp ⊢
  have hold := hm i j hin hnp
  by_cases h1 : i = b.enemy_i ∧ j = b.enemy_j
  · have h2 : ¬ (i = c.1 ∧ j = c.2) := by omega
    rw [if_pos h1, if_neg h2]
  · rw [if_neg h1]
    by_cases h2 : i = c.1 ∧ j = c.2
    · rw [if_pos h2, if_pos h2]
    · rw [if_neg h2, if_neg h2, hold, if_neg h1]

theorem move_enemy_marked (rs : List Nat) :
    ∀ (g g1 : Game) (rs1 : List Nat), move_enemy g rs = some (g1, rs1) →
      in_board g.board g.board.enemy_i g.board.enemy_j → enemy_marked g.board →
      enemy_marked g1.board := by
  induction rs with
  | nil => intro g g1 rs1 hm; simp [move_enemy] at hm
  | cons r rs ih =>
    intro g g1 rs1 hm he hk
    unfold move_enemy at hm
    simp only at hm
    cases ht : enemy_try g.board g.last_mov ((r % 4 : Nat) : Int) with
    | none =>
      rw [ht] at hm
      exact ih g g1 rs1 hm he hk
    | some c =>
      rw [ht] at hm
      simp only at hm
      cases hp : enemy_place g.board c.1 c.2 with
      | none => rw [hp] at hm; simp at hm
      | some b =>
        rw [hp] at hm
        simp only at hm
        obtain ⟨q1, q2, _, _, q5, q6⟩ := enemy_place_some hp
        have hb : in_board b b.enemy_i b.enemy_j := by
          have hc := enemy_try_in_board he ht
          unfold in_board at hc ⊢
          rw [q1, q2, q5, q6]; exact hc
        have hk1 := enemy_place_marked he ht hp hk
        by_cases hn : next2enemy b = true
        · rw [if_pos hn] at hm
          exact ih { board := b, last_mov := ((r % 4 : Nat) : Int) } g1 rs1 hm hb hk1
        · rw [if_neg hn] at hm
          cases hm
          exact hk1

theorem mem_neighbours {b : Board} {c : Int × Int} (hc : c ∈ neighbours b) :
    in_board b c.1 c.2 ∧
      ((c.1 = b.player_i ∧ c.2 = b.player_j - 1) ∨ (c.1 = b.player_i - 1 ∧ c.2 = b.player_j) ∨
        (c.1 = b.player_i ∧ c.2 = b.player_j + 1) ∨ (c.1 = b.player_i + 1 ∧ c.2 = b.player_j)) := by
  unfold neighbours scan_order at hc
  rw [List.mem_filter] at hc
  obtain ⟨h1, h2⟩ := hc
  refine ⟨by simpa using h2, ?_⟩
  simp only [List.mem_cons, List.mem_singleton, List.not_mem_nil, or_false] at h1
  rcases h1 with h | h | h | h <;> subst h <;> simp

/-- On a square board, with a field that holds a non-negative value for every
cell, a successful `move_player` puts the player on a neighbouring cell of the
board. -/
theorem move_player_adjacent {b b1 : Board} {pos : Field} (val : Int × Int → Int)
    (hsq : b.w = b.h) (hp : in_board b b.player_i b.player_j)
    (hval : ∀ i j, in_board b i j → field_at b pos i j = some (val (i, j)) ∧ 0 ≤ val (i, j))
    (hs : move_player b pos = some b1) :
    (b1.player_i, b1.player_j) ∈ neighbours b ∧
      b1 = { b with
        matrix := fun x y =>
          if x = b.player_i ∧ y = b.player_j then BOARD_DEFAULT_VALUE
          else if x = b1.player_i ∧ y = b1.player_j then PLAYER_CHAR else b.matrix x y,
        player_i := b1.player_i, player_j := b1.player_j } := by
  obtain ⟨c1, c2, c3, _⟩ := move_player_some hs
  obtain ⟨st, hc, hsc⟩ := player_choice_scanned b pos val hsq hp hval
  have e := Option.some.inj ((move_player_of_choice c1 c2 c3).symm.trans hs)
  refine ⟨?_, ?_⟩
  · rcases hsc with ⟨_, e2, _⟩ | ⟨c, e1, _, _, l1, l2, e4, _, _⟩
    · rw [c1, e2] at hc; cases hc
    · rw [c1, e1] at hc
      rw [Option.some.inj hc, e4]
      simp
  · exact e.symm

theorem manhattan_nonneg (i j i1 j1 : Int) : 0 ≤ manhattan i j i1 j1 := by
  unfold manhattan c_abs
  omega

/-- One completed tick on a square board keeps the dimensions, keeps both
positions on the board and restores the occupancy of the matrix. -/
theorem update_board_square {g g1 : Game} {rs rs1 : List Nat}
    (hsq : g.board.w = g.board.h) (hpos : 2 ≤ g.board.h)
    (hp : in_board g.board g.board.player_i g.board.player_j)
    (he : in_board g.board g.board.enemy_i g.board.enemy_j)
    (hocc : occupancy_ok g.board)
    (hu : update_board g rs = some (g1, rs1)) :
    g1.board.w = g.board.w ∧ g1.board.h = g.board.h ∧
      in_board g1.board g1.board.player_i g1.board.player_j ∧
      in_board g1.board g1.board.enemy_i g1.board.enemy_j ∧ occupancy_ok g1.board := by
  obtain ⟨pos, g2, hw, hm, hmp, _⟩ := update_board_some hu
  obtain ⟨pos1, hw1, hfield⟩ := wavefront_field g.board (by omega) (by omega)
  have epos : pos1 = pos := Option.some.inj (hw1.symm.trans hw)
  subst epos
  obtain ⟨a1, a2, a3, a4, a5, a6⟩ := move_enemy_some rs g g2 rs1 hm
  have he2 := a6 he
  have hmark : enemy_marked g2.board := by
    apply move_enemy_marked rs g g2 rs1 hm he
    intro i j hin hnp
    rw [hocc.2 i j hin, if_neg hnp]
  have hp2 : in_board g2.board g2.board.player_i g2.board.player_j := by
    unfold in_board at hp ⊢
    rw [a1, a2, a3, a4]; exact hp
  have hval : ∀ i j, in_board g2.board i j →
      field_at g2.board pos1 i j =
          some ((fun c : Int × Int => manhattan g.board.enemy_i g.board.enemy_j c.1 c.2) (i, j)) ∧
        0 ≤ (fun c : Int × Int => manhattan g.board.enemy_i g.board.enemy_j c.1 c.2) (i, j) := by
    intro i j hin
    unfold in_board at hin
    rw [a1, a2] at hin
    refine ⟨?_, manhattan_nonneg _ _ _ _⟩
    have := hfield i j hin.1 hin.2.1 hin.2.2.1 (by omega)
    unfold field_at at this ⊢
    rw [a2]
    exact this
  obtain ⟨hmem, hform⟩ := move_player_adjacent
    (fun c : Int × Int => manhattan g.board.enemy_i g.board.enemy_j c.1 c.2)
    (by rw [a1, a2]; exact hsq) hp2 hval hmp
  obtain ⟨hin, hadj⟩ := mem_neighbours hmem
  simp only at hin hadj
  have hfar : 1 < c_abs (g2.board.player_i - g2.board.enemy_i) +
      c_abs (g2.board.player_j - g2.board.enemy_j) := by
    unfold next2enemy at a5
    simpa using a5
  unfold c_abs at hfar
  have q1 : g1.board.w = g2.board.w := by rw [hform]
  have q2 : g1.board.h = g2.board.h := by rw [hform]
  have q3 : g1.board.enemy_i = g2.board.enemy_i := by rw [hform]
  have q4 : g1.board.enemy_j = g2.board.enemy_j := by rw [hform]
  refine ⟨by rw [q1, a1], by rw [q2, a2], ?_, ?_, ?_, ?_⟩
  · unfold in_board at hin ⊢
    rw [q1, q2]; exact hin
  · unfold in_board at he2 ⊢
    rw [q1, q2, q3, q4]; exact he2
  · rw [q3, q4]; omega
  · intro i j hij
    have hij2 : in_board g2.board i j := by
      unfold in_board at hij ⊢
      rw [q1, q2] at hij; exact hij
    rw [q3, q4]
    have hm1 : g1.board.matrix i j =
        if i = g2.board.player_i ∧ j = g2.board.player_j then BOARD_DEFAULT_VALUE
        else if i = g1.board.player_i ∧ j = g1.board.player_j then PLAYER_CHAR
        else g2.board.matrix i j := by
      conv_lhs => rw [hform]
    rw [hm1]
    by_cases c1 : i = g2.board.player_i ∧ j = g2.board.player_j
    · have c2 : ¬ (i = g1.board.player_i ∧ j = g1.board.player_j) := by omega
      have c3 : ¬ (i = g2.board.enemy_i ∧ j = g2.board.enemy_j) := by omega
      rw [if_pos c1, if_neg c2, if_neg c3]
    · rw [if_neg c1]
      by_cases c2 : i = g1.board.player_i ∧ j = g1.board.player_j
      · rw [if_pos c2, if_pos c2]
      · rw [if_neg c2, if_neg c2]
        exact hmark i j hij2 c1

/-- On a square board with at least two rows every state the driver loop passes
through keeps the dimensions, has player and enemy on the board, on different
cells, and has the matrix marked accordingly: Player mark at the player's cell,
Enemy mark at the enemy's cell, every other cell empty. -/
theorem square_board_invariant (n : Int) (hn : 2 ≤ n) (g : Game) (hr : Reachable n n g) :
    g.board.w = n ∧ g.board.h = n ∧
      in_board g.board g.board.player_i g.board.player_j ∧
      in_board g.board g.board.enemy_i g.board.enemy_j ∧ occupancy_ok g.board := by
  induction hr with
  | start g hs =>
    unfold new_game at hs
    cases hc : create_board n n with
    | none => simp [hc] at hs
    | some b =>
      simp only [hc, Option.map_some'] at hs
      have hg := Option.some.inj hs
      subst hg
      obtain ⟨f1, f2, f3, f4, f5, f6⟩ := create_board_some hc
      obtain ⟨m1, m2, m3⟩ := create_board_matrix hc
      simp only
      refine ⟨f1, f2, ?_, ?_, ?_, ?_⟩
      · rw [f3, f4]; exact m1
      · rw [f5, f6]; exact m2
      · rw [f3, f4, f5, f6]; omega
      · intro i j _
        rw [m3 i j, f3, f4, f5, f6]
        by_cases c1 : i = 0 ∧ j = 0
        · have c2 : ¬ (i = n - 1 ∧ j = n - 1) := by omega
          rw [if_neg c2, if_pos c1, if_pos c1]
        · rw [if_neg c1, if_neg c1]
  | tick g g1 rs rs1 _ _ hu ih =>
    obtain ⟨i1, i2, i3, i4, i5⟩ := ih
    obtain ⟨r1, r2, r3, r4, r5⟩ :=
      update_board_square (by rw [i1, i2]) (by rw [i2]; exact hn) i3 i4 i5 hu
    exact ⟨by rw [r1, i1], by rw [r2, i2], r3, r4, r5⟩

/-! ## The walk of the enemy inside one call of `move_enemy` -/

theorem enemy_try_unit_step {b : Board} {lm p : Int} {c : Int × Int}
    (ht : enemy_try b lm p = some c) : manhattan b.enemy_i b.enemy_j c.1 c.2 = 1 := by
  have h := enemy_try_adjacent ht
  unfold manhattan c_abs
  omega

theorem next2enemy_eq_true_iff (b : Board) :
    next2enemy b = true ↔ manhattan b.player_i b.player_j b.enemy_i b.enemy_j ≤ 1 := by
  unfold next2enemy manhattan
  simp

theorem move_enemy_walk (rs : List Nat) :
    ∀ (g g1 : Game) (rs1 : List Nat), move_enemy g rs = some (g1, rs1) →
      enemy_walk g.board.player_i g.board.player_j (enemy_cell g) (enemy_cell g1) := by
  induction rs with
  | nil => intro g g1 rs1 hm; simp [move_enemy] at hm
  | cons r rs ih =>
    intro g g1 rs1 hm
    unfold move_enemy at hm
    simp only at hm
    cases ht : enemy_try g.board g.last_mov ((r % 4 : Nat) : Int) with
    | none =>
      rw [ht] at hm
      exact ih g g1 rs1 hm
    | some c =>
      rw [ht] at hm
      simp only at hm
      cases hp : enemy_place g.board c.1 c.2 with
      | none => rw [hp] at hm; simp at hm
      | some b =>
        rw [hp] at hm
        simp only at hm
        obtain ⟨_, _, q3, q4, q5, q6⟩ := enemy_place_some hp
        have hstep : manhattan (enemy_cell g).1 (enemy_cell g).2 b.enemy_i b.enemy_j = 1 := by
          rw [q5, q6]
          exact enemy_try_unit_step ht
        by_cases hn : next2enemy b = true
        · rw [if_pos hn] at hm
          have hw := ih { board := b, last_mov := ((r % 4 : Nat) : Int) } g1 rs1 hm
          simp only at hw
          rw [q3, q4] at hw
          have hnear := (next2enemy_eq_true_iff b).mp hn
          rw [q3, q4] at hnear
          exact enemy_walk.more _ (b.enemy_i, b.enemy_j) _ hstep hnear hw
        · rw [if_neg hn] at hm
          cases hm
          have hfar : 1 < manhattan g.board.player_i g.board.player_j b.enemy_i b.enemy_j := by
            have := (next2enemy_eq_true_iff b).not.mp hn
            rw [q3, q4] at this
            omega
          exact enemy_walk.last _ (b.enemy_i, b.enemy_j) hstep hfar

/-! ## Single steps of the enemy, and the neighbour that is closer to the enemy -/

theorem enemy_step_of_try {b : Board} {lm p : Int} {c : Int × Int}
    (he : in_board b b.enemy_i b.enemy_j) (ht : enemy_try b lm p = some c) :
    ∃ g1, enemy_step { board := b, last_mov := lm } p = some g1 ∧ enemy_cell g1 = c ∧
      g1.last_mov = p := by
  have hc := enemy_try_in_board he ht
  have hp := enemy_place_of_in_board he hc
  unfold enemy_step
  simp only [ht, Option.some_bind, hp, Option.map_some']
  exact ⟨_, rfl, rfl, rfl⟩

theorem enemy_step_some {g g1 : Game} {p : Int} (hs : enemy_step g p = some g1) :
    enemy_try g.board g.last_mov p = some (enemy_cell g1) ∧ g1.last_mov = p := by
  unfold enemy_step at hs
  cases ht : enemy_try g.board g.last_mov p with
  | none => simp [ht] at hs
  | some c =>
    simp only [ht, Option.some_bind] at hs
    cases hp : enemy_place g.board c.1 c.2 with
    | none => simp [hp] at hs
    | some b =>
      simp only [hp, Option.map_some'] at hs
      obtain ⟨_, _, _, _, q5, q6⟩ := enemy_place_some hp
      cases hs
      refine ⟨?_, rfl⟩
      simp only [enemy_cell, q5, q6]

theorem closer_neighbour (b : Board) (hp : in_board b b.player_i b.player_j)
    (he : in_board b b.enemy_i b.enemy_j)
    (hne : ¬ (b.player_i = b.enemy_i ∧ b.player_j = b.enemy_j)) :
    ∃ x ∈ neighbours b,
      manhattan b.enemy_i b.enemy_j x.1 x.2 =
        manhattan b.enemy_i b.enemy_j b.player_i b.player_j - 1 := by
  unfold in_board at hp he
  have key : ∀ x : Int × Int, x ∈ scan_order b.player_i b.player_j → in_board b x.1 x.2 →
      x ∈ neighbours b := by
    intro x hx hin
    unfold neighbours
    rw [List.mem_filter]
    exact ⟨hx, by simpa using hin⟩
  by_cases h1 : b.enemy_i < b.player_i
  · refine ⟨(b.player_i - 1, b.player_j), key _ (by simp [scan_order]) ?_, ?_⟩
    · unfold in_board; simp only; omega
    · unfold manhattan c_abs; simp only; omega
  · by_cases h2 : b.player_i < b.enemy_i
    · refine ⟨(b.player_i + 1, b.player_j), key _ (by simp [scan_order]) ?_, ?_⟩
      · unfold in_board; simp only; omega
      · unfold manhattan c_abs; simp only; omega
    · by_cases h3 : b.enemy_j < b.player_j
      · refine ⟨(b.player_i, b.player_j - 1), key _ (by simp [scan_order]) ?_, ?_⟩
        · unfold in_board; simp only; omega
        · unfold manhattan c_abs; simp only; omega
      · refine ⟨(b.player_i, b.player_j + 1), key _ (by simp [scan_order]) ?_, ?_⟩
        · unfold in_board; simp only; omega
        · unfold manhattan c_abs; simp only; omega

theorem first_min_le {val : Int × Int → Int} {l : List (Int × Int)} {c x : Int × Int}
    (hf : first_min val l c) (hx : x ∈ l) : val c ≤ val x := by
  obtain ⟨l1, l2, e, h1, h2⟩ := hf
  rw [e] at hx
  rcases List.mem_append.mp hx with h | h
  · exact le_of_lt (h1 x h)
  · rcases List.mem_cons.mp h with h | h
    · rw [h]
    · exact h2 x h

theorem first_min_mem {val : Int × Int → Int} {l : List (Int × Int)} {c : Int × Int}
    (hf : first_min val l c) : c ∈ l := by
  obtain ⟨l1, l2, e, _, _⟩ := hf
  rw [e]
  simp

/-! ## `create_board` and its allocator -/

/-- With every request granted, `create_board_alloc` is `create_board`: a board
where `create_board` yields one, no defined result elsewhere. -/
theorem create_board_alloc_granted (w h : Int) :
    create_board_alloc true (fun _ => true) (fun _ _ => true) w h =
      match create_board w h with
      | some b => Outcome.object b
      | none => Outcome.undefined := by
  unfold create_board_alloc create_matrix_alloc create_board
  by_cases hh : h < 0
  · have hn : matrix_set
        { w := w, h := h, player_i := 0, player_j := 0, enemy_i := w - 1, enemy_j := h - 1,
          matrix := create_matrix w h BOARD_DEFAULT_VALUE } 0 0 PLAYER_CHAR = none := by
      unfold matrix_set
      rw [if_neg (by simp only; omega)]
    simp [hh, hn]
  · simp [hh]

/-! ## The claims -/

/-- C1, the code diverges: on the board `create_board(3, 2)` (enemy position
`(2, 1)`) the cell `(0, 2)` lies in row `0 < h` and column `2 < w`, its Manhattan
distance to the enemy is 3, but after `wavefront` the entry `pos[0][2]` holds 2:
with rows of `h = 2` ints it is the same int as `pos[1][0]`, which is assigned
later.  Read with rows of `w = 3` ints, as `update_board` declares the block,
the cell `(0, 2)` is that same int. -/
theorem wavefront_overwrites_wide_board :
    (create_board 3 2).map (fun b => (b.h, b.w, b.enemy_i, b.enemy_j)) = some (2, 3, 2, 1) ∧
      (create_board 3 2).map (fun b => manhattan b.enemy_i b.enemy_j 0 2) = some 3 ∧
      ((create_board 3 2).bind fun b =>
        (wavefront b (fresh_field b)).bind fun pos => field_at b pos 0 2) = some 2 ∧
      (create_board 3 2).map (fun b => (pos_index b.h 0 2, pos_index b.h 1 0)) = some (2, 2) ∧
      (create_board 3 2).map (fun b => manhattan b.enemy_i b.enemy_j 1 0) = some 2 ∧
      (create_board 3 2).map (fun b => block_index b.w 0 2) = some 2 := by
  decide

/-- C2, the code diverges: on a 3 wide, 2 high board with the player at `(0, 1)`
the East neighbour `(0, 2)` is on the board and holds the least field value, 0,
but `move_player` never looks at it (`2 < board->h` fails) and moves the player
West to `(0, 0)`, whose value is 5, the value of the South neighbour `(1, 1)`
too.  The three values are the same whether the block is read with rows of `h`
ints or with rows of `w` ints. -/
theorem move_player_skips_east_wide_board :
    in_board board_3x2 board_3x2.player_i board_3x2.player_j ∧ in_board board_3x2 0 2 ∧
      field_at board_3x2 field_3x2 0 2 = some 0 ∧ field_at board_3x2 field_3x2 0 0 = some 5 ∧
      field_at board_3x2 field_3x2 1 1 = some 5 ∧
      field_3x2.read (block_index board_3x2.w 0 2) = some 0 ∧
      field_3x2.read (block_index board_3x2.w 0 0) = some 5 ∧
      field_3x2.read (block_index board_3x2.w 1 1) = some 5 ∧
      (move_player board_3x2 field_3x2).map (fun b => (b.player_i, b.player_j)) =
        some (0, 0) := by
  decide

/-- C3, the claim as stated fails: on a 3 by 3 board with the player in the
middle and the enemy at `(0, 0)`, the North neighbour `(0, 1)` and the West
neighbour `(1, 0)` tie for the minimum of the field (value 1, against 3 for East
and South), and `move_player` moves the player West to `(1, 0)`, not North. -/
theorem move_player_tie_goes_west :
    ((wavefront board_3x3 (fresh_field board_3x3)).bind fun pos =>
        field_at board_3x3 pos 0 1) = some 1 ∧
      ((wavefront board_3x3 (fresh_field board_3x3)).bind fun pos =>
        field_at board_3x3 pos 1 0) = some 1 ∧
      ((wavefront board_3x3 (fresh_field board_3x3)).bind fun pos =>
        field_at board_3x3 pos 1 2) = some 3 ∧
      ((wavefront board_3x3 (fresh_field board_3x3)).bind fun pos =>
        field_at board_3x3 pos 2 1) = some 3 ∧
      ((wavefront board_3x3 (fresh_field board_3x3)).bind fun pos =>
        (move_player board_3x3 pos).map fun b => (b.player_i, b.player_j)) = some (1, 0) ∧
      ((wavefront board_3x3 (fresh_field board_3x3)).bind fun pos =>
        (move_player board_3x3 pos).map fun b => (b.player_i, b.player_j)) ≠ some (0, 1) := by
  decide

/-- C3 as amended: on a square board with at least two rows, with the player on
the board and a field that holds a non-negative value `val (i, j)` for every
cell of the board, `move_player` moves the player to the first cell of minimal
value among the neighbours on the board, taken in the order West `(i, j - 1)`,
North `(i - 1, j)`, East `(i, j + 1)`, South `(i + 1, j)`: every neighbour
scanned before the chosen one has a larger value, none scanned after it has a
smaller one. -/
theorem move_player_first_min (b : Board) (pos : Field) (val : Int × Int → Int)
    (hsq : b.w = b.h) (h2 : 2 ≤ b.h) (hp : in_board b b.player_i b.player_j)
    (hval : ∀ i j, in_board b i j → field_at b pos i j = some (val (i, j)) ∧ 0 ≤ val (i, j)) :
    ∃ b1, move_player b pos = some b1 ∧
      first_min val (neighbours b) (b1.player_i, b1.player_j) := by
  obtain ⟨st, hc, hs⟩ := player_choice_scanned b pos val hsq hp hval
  rcases hs with ⟨e1, _, _⟩ | ⟨c, e1, _, _, hf⟩
  · exact absurd e1 (neighbours_ne_nil b hsq h2 hp)
  · rw [e1] at hc
    have hmem : c ∈ neighbours b := by
      obtain ⟨l1, l2, e, _, _⟩ := hf
      rw [e]
      simp
    have hin : in_board b c.1 c.2 := by
      unfold neighbours at hmem
      rw [List.mem_filter] at hmem
      simpa using hmem.2
    exact ⟨_, move_player_of_choice hc hin hp, hf⟩

/-- An instance of C3 as amended: `board_3x3` with the field `field_3x3`, whose
cell `(i, j)` holds `3 * i + j`. -/
theorem move_player_first_min_witness :
    ∃ b1, move_player board_3x3 field_3x3 = some b1 ∧
      first_min (fun c => c.1 * 3 + c.2) (neighbours board_3x3) (b1.player_i, b1.player_j) :=
  move_player_first_min board_3x3 field_3x3 (fun c => c.1 * 3 + c.2) (by decide) (by decide)
    (by decide) (by
      intro i j hin
      unfold in_board at hin
      have e3 : board_3x3.h = 3 := rfl
      have e4 : board_3x3.w = 3 := rfl
      rw [e3, e4] at hin
      unfold field_at Field.read pos_index
      rw [e3]
      have e5 : field_3x3.size = 9 := rfl
      rw [e5]
      rw [if_pos (by omega)]
      exact ⟨rfl, by simp only; omega⟩)

/-- C4, the code diverges: in the game `create_board(4, 4)` run on the samples
`2, 0, 1, 2` the enemy stands at `(2, 2)` after two ticks; in the third tick the
sample `1` (South, barred by `last_mov = 0`) falls through to the East branch,
the enemy goes East to `(2, 3)` and `last_mov` becomes 1; the next step, on
sample `2`, goes West, back to `(2, 2)`. -/
theorem move_enemy_reverses_east_west :
    ((new_game 4 4).bind fun g => play 2 g [2, 0, 1]).map
        (fun x => (enemy_cell x.1, x.1.last_mov, x.2)) = some ((2, 2), 0, [1]) ∧
      ((new_game 4 4).bind fun g => play 3 g [2, 0, 1]).map
        (fun x => (enemy_cell x.1, x.1.last_mov)) = some ((2, 3), 1) ∧
      (((new_game 4 4).bind fun g => play 3 g [2, 0, 1]).bind fun x =>
        enemy_step x.1 2).map enemy_cell = some (2, 2) ∧
      move_dir 2 2 2 3 = some 3 ∧ move_dir 2 3 2 2 = some 2 := by
  decide

/-- C5: one step of the enemy from a cell on the board: whenever a sample `p`
makes the inner loop of `move_enemy` break with a cell, the step is carried out,
the enemy stands on that cell afterwards, the dimensions are unchanged, and the
new position again satisfies `0 <= row < h` and `0 <= col < w`.  (An enemy on the
board forces positive dimensions.) -/
theorem enemy_step_in_board (g : Game) (p : Int) (c : Int × Int)
    (he : in_board g.board g.board.enemy_i g.board.enemy_j)
    (ht : enemy_try g.board g.last_mov p = some c) :
    ∃ g1, enemy_step g p = some g1 ∧ enemy_cell g1 = c ∧ g1.board.w = g.board.w ∧
      g1.board.h = g.board.h ∧ 0 < g1.board.w ∧ 0 < g1.board.h ∧
      in_board g1.board g1.board.enemy_i g1.board.enemy_j := by
  have hc := enemy_try_in_board he ht
  have hp := enemy_place_of_in_board he hc
  unfold enemy_step
  rw [ht]
  simp only [Option.some_bind, hp, Option.map_some']
  unfold in_board at hc he ⊢
  exact ⟨_, rfl, rfl, rfl, rfl, by simp only; omega, by simp only; omega, hc⟩

/-- An instance of C5: the enemy at `(0, 0)` of `board_3x3` and the sample 1, a
step South. -/
theorem enemy_step_in_board_witness :
    ∃ g1, enemy_step { board := board_3x3, last_mov := 2 } 1 = some g1 ∧
      enemy_cell g1 = (1, 0) ∧ g1.board.w = 3 ∧ g1.board.h = 3 ∧ 0 < g1.board.w ∧
      0 < g1.board.h ∧ in_board g1.board g1.board.enemy_i g1.board.enemy_j :=
  enemy_step_in_board { board := board_3x3, last_mov := 2 } 1 (1, 0) (by decide) (by decide)

/-- C6, the code diverges: `create_board(3, 2)` puts the player at `(0, 0)` and
the Enemy mark on the cell `(h - 1, w - 1) = (1, 2)`, but stores `(w - 1, h - 1) =
(2, 1)` as the enemy position. -/
theorem create_board_enemy_transposed :
    (create_board 3 2).map (fun b => (b.player_i, b.player_j)) = some (0, 0) ∧
      (create_board 3 2).map (fun b => (b.enemy_i, b.enemy_j)) = some (2, 1) ∧
      (create_board 3 2).map (fun b => (b.h - 1, b.w - 1)) = some (1, 2) ∧
      (create_board 3 2).map (fun b => b.matrix 1 2) = some ENEMY_CHAR := by
  decide

/-- C7, the code diverges: the start state of the 3 wide, 2 high game is
reachable (no tick at all), and its enemy position `(2, 1)` has a row that is
not below `h = 2`. -/
theorem reachable_enemy_off_board :
    ∃ g, Reachable 3 2 g ∧ g.board.h = 2 ∧ g.board.enemy_i = 2 ∧
      ¬ in_board g.board g.board.enemy_i g.board.enemy_j :=
  ⟨_, Reachable.start _ rfl, by decide, by decide, by decide⟩

/-- C8: when a tick completes, the player ends where `move_player` puts it when
run on the board as it was before the tick with the field `wavefront` computes
from that board; hence two ticks from the same state, on any two sample lists,
leave the player on the same cell. -/
theorem update_board_player (g g1 g2 : Game) (rs rs' rs1 rs2 : List Nat)
    (h1 : update_board g rs = some (g1, rs1)) (h2 : update_board g rs' = some (g2, rs2)) :
    (∃ pos b, wavefront g.board (fresh_field g.board) = some pos ∧
        move_player g.board pos = some b ∧ player_cell g1 = (b.player_i, b.player_j)) ∧
      player_cell g2 = player_cell g1 := by
  obtain ⟨pos, g3, hw, hm, hp, _⟩ := update_board_some h1
  obtain ⟨pos', g4, hw', hm', hp', _⟩ := update_board_some h2
  have e : pos' = pos := Option.some.inj (hw'.symm.trans hw)
  subst e
  obtain ⟨a1, a2, a3, a4, _, _⟩ := move_enemy_some rs g g3 rs1 hm
  obtain ⟨b1, b2, b3, b4, _, _⟩ := move_enemy_some rs' g g4 rs2 hm'
  obtain ⟨c1, c2, c3, _⟩ := move_player_some hp
  obtain ⟨d1, _⟩ := move_player_some hp'
  rw [a2, a3, a4] at c1
  rw [b2, b3, b4] at d1
  unfold in_board at c2 c3
  rw [a1, a2] at c2 c3
  rw [a3, a4] at c3
  refine ⟨⟨pos', _, hw, move_player_of_choice c1 c2 c3, rfl⟩, ?_⟩
  have := Option.some.inj (d1.symm.trans c1)
  exact this

/-- An instance of C8: two ticks of `game_2x2` that complete on different
samples. -/
theorem update_board_player_witness :
    ∃ g1 g2 rs1 rs2, update_board game_2x2 [0, 2, 1, 0] = some (g1, rs1) ∧
      update_board game_2x2 [2, 3, 0, 3, 1] = some (g2, rs2) ∧
      player_cell g2 = player_cell g1 :=
  ⟨_, _, _, _, rfl, rfl,
    (update_board_player game_2x2 _ _ [0, 2, 1, 0] [2, 3, 0, 3, 1] _ _ rfl rfl).2⟩

/-- C9: on the board `create_board(2, 2)` the player starts at `(0, 0)` and the
enemy at `(1, 1)`, at Manhattan distance 2, so `next2enemy` is false; and after
one call of `update_board` that completes, whatever the samples, `next2enemy`
is true and the distance is at most 1. -/
theorem scenario_2x2 (g0 g1 : Game) (rs rs1 : List Nat) (h0 : new_game 2 2 = some g0)
    (hu : update_board g0 rs = some (g1, rs1)) :
    (player_cell g0 = (0, 0) ∧ enemy_cell g0 = (1, 1) ∧
        manhattan g0.board.player_i g0.board.player_j g0.board.enemy_i g0.board.enemy_j = 2 ∧
        next2enemy g0.board = false) ∧
      (next2enemy g1.board = true ∧
        manhattan g1.board.player_i g1.board.player_j g1.board.enemy_i g1.board.enemy_j ≤ 1) := by
  unfold new_game at h0
  cases hc : create_board 2 2 with
  | none => simp [hc] at h0
  | some b0 =>
    simp only [hc, Option.map_some'] at h0
    have hg := Option.some.inj h0
    subst hg
    obtain ⟨f1, f2, f3, f4, f5, f6⟩ := create_board_some hc
    norm_num at f5 f6
    obtain ⟨pos, g2, hw, hm, hp, _⟩ := update_board_some hu
    simp only at hw hm
    have hch := start_choice_2x2
    simp only [hc, Option.some_bind, hw] at hch
    obtain ⟨a1, a2, a3, a4, a5, a6⟩ := move_enemy_some rs _ g2 rs1 hm
    simp only at a1 a2 a3 a4 a6
    obtain ⟨c1, _, _, _, _, c6, c7⟩ := move_player_some hp
    rw [a2, a3, a4, f2, f3, f4, hch] at c1
    have hin : in_board g2.board g2.board.enemy_i g2.board.enemy_j := by
      apply a6
      unfold in_board
      rw [f1, f2, f5, f6]
      decide
    unfold in_board at hin
    rw [a1, a2, f1, f2] at hin
    unfold next2enemy c_abs at a5
    rw [a3, a4, f3, f4] at a5
    simp only [decide_eq_false_iff_not, not_le] at a5
    have hi : g2.board.enemy_i = 1 := by omega
    have hj : g2.board.enemy_j = 1 := by omega
    have p1 : g1.board.player_i = 0 := (congrArg Prod.fst (Option.some.inj c1)).symm
    have p2 : g1.board.player_j = 1 := (congrArg Prod.snd (Option.some.inj c1)).symm
    refine ⟨⟨?_, ?_, ?_, ?_⟩, ?_, ?_⟩
    · simp [player_cell, f3, f4]
    · simp [enemy_cell, f5, f6]
    · simp only [f3, f4, f5, f6]; decide
    · unfold next2enemy; simp only [f3, f4, f5, f6]; decide
    · unfold next2enemy; simp only [p1, p2, c6, c7, hi, hj]; decide
    · simp only [p1, p2, c6, c7, hi, hj]; decide

/-- An instance of C9: the tick on the samples `0, 2, 1, 0`. -/
theorem scenario_2x2_witness :
    ∃ g0 g1 rs1, new_game 2 2 = some g0 ∧ update_board g0 [0, 2, 1, 0] = some (g1, rs1) ∧
      next2enemy g0.board = false ∧ next2enemy g1.board = true :=
  ⟨_, _, _, rfl, rfl, (scenario_2x2 _ _ [0, 2, 1, 0] _ rfl rfl).1.2.2.2,
    (scenario_2x2 _ _ [0, 2, 1, 0] _ rfl rfl).2.1⟩

/-- C10, the code diverges: in the state `create_board(3, 2)` the two marked cells
are `(0, 0)` (Player) and `(1, 2)` (Enemy), while the enemy position is `(2, 1)`,
which is not a cell of the board; the Enemy mark is not at the enemy's
position. -/
theorem create_board_enemy_mark_elsewhere :
    (create_board 3 2).map (fun b => (b.matrix 0 0, b.matrix 0 1, b.matrix 0 2)) =
        some (PLAYER_CHAR, BOARD_DEFAULT_VALUE, BOARD_DEFAULT_VALUE) ∧
      (create_board 3 2).map (fun b => (b.matrix 1 0, b.matrix 1 1, b.matrix 1 2)) =
        some (BOARD_DEFAULT_VALUE, BOARD_DEFAULT_VALUE, ENEMY_CHAR) ∧
      (create_board 3 2).map (fun b => (b.enemy_i, b.enemy_j)) = some (2, 1) ∧
      (create_board 3 2).map (fun b => decide (in_board b b.enemy_i b.enemy_j)) =
        some false := by
  decide

/-- C11, the claim as stated fails: the start state of the 2 by 2 game is not
terminal, the tick on the samples `0, 2, 1, 0` completes, and the enemy, which
stood on `(1, 1)` before the tick, stands on `(1, 1)` after it: four steps, and
a distance of 0, not 1, between the two positions. -/
theorem update_board_enemy_returns :
    (new_game 2 2).map (fun g => (next2enemy g.board, enemy_cell g)) = some (false, (1, 1)) ∧
      ((new_game 2 2).bind fun g => update_board g [0, 2, 1, 0]).map
        (fun x => (enemy_cell x.1, x.2)) = some ((1, 1), []) ∧
      ((new_game 2 2).bind fun g => (enemy_step g 0).bind fun g => (enemy_step g 2).bind
        fun g => (enemy_step g 1).bind fun g => enemy_step g 0).map enemy_cell = some (1, 1) ∧
      manhattan 1 1 1 1 = 0 := by
  decide

/-- C11 as amended: one call of `update_board` that completes advances the enemy
by one or more steps, each to a cell at Manhattan distance exactly 1 from the
cell before; a further step follows exactly when the step just made leaves the
enemy within distance 1 of the player's position before the tick. -/
theorem update_board_enemy_walk (g g1 : Game) (rs rs1 : List Nat)
    (hu : update_board g rs = some (g1, rs1)) :
    enemy_walk g.board.player_i g.board.player_j (enemy_cell g) (enemy_cell g1) := by
  obtain ⟨pos, g2, _, hm, hp, _⟩ := update_board_some hu
  obtain ⟨_, _, _, _, _, c6, c7⟩ := move_player_some hp
  have hw := move_enemy_walk rs g g2 rs1 hm
  have e : enemy_cell g1 = enemy_cell g2 := by
    unfold enemy_cell
    rw [c6, c7]
  rw [e]
  exact hw

/-- An instance of C11 as amended: the tick of `game_2x2` on the samples
`0, 2, 1, 0`. -/
theorem update_board_enemy_walk_witness :
    ∃ g1 rs1, update_board game_2x2 [0, 2, 1, 0] = some (g1, rs1) ∧
      enemy_walk 0 0 (1, 1) (enemy_cell g1) :=
  ⟨_, _, rfl, update_board_enemy_walk game_2x2 _ [0, 2, 1, 0] _ rfl⟩

/-- C12, the code diverges: on the board `create_board(5, 1)`, a single row of
five cells with the player at `(0, 0)`, `wavefront` fills the field, but the scan
of `move_player` takes no candidate (`1 < board->h` fails for the East
neighbour `(0, 1)`, which is on the board), `next_i` and `next_j` are never
assigned, and `move_player` has no defined result: the player is not moved to a
cell at distance 1. -/
theorem move_player_single_row :
    (create_board 5 1).map (fun b => (b.w, b.h, b.player_i, b.player_j)) = some (5, 1, 0, 0) ∧
      (create_board 5 1).map (fun b => decide (in_board b 0 1)) = some true ∧
      ((create_board 5 1).bind fun b =>
        (wavefront b (fresh_field b)).bind fun pos => field_at b pos 0 1) = some 5 ∧
      ((create_board 5 1).bind fun b => (wavefront b (fresh_field b)).bind fun pos =>
        player_choice b.h pos b.player_i b.player_j) = none ∧
      ((create_board 5 1).bind fun b => (wavefront b (fresh_field b)).bind fun pos =>
        (move_player b pos).map fun b1 => (b1.player_i, b1.player_j)) = none := by
  decide

/-- C13, the claim as stated fails: `create_board` has no check of its
dimensions.  With every allocation request granted, `create_board(0, 5)` does
not return the null pointer, its only error value: it goes on to assign
`matrix[0][0]` in rows of 0 chars, outside defined behaviour; the same holds
for `create_board(5, -1)`, which returns the null pointer only when the request
for `-1` row pointers is refused. -/
theorem create_board_unchecked :
    (create_board_alloc true (fun _ => true) (fun _ _ => true) 0 5).is_null = false ∧
      (create_board_alloc true (fun _ => true) (fun _ _ => true) 0 5).is_undefined = true ∧
      (create_board_alloc true (fun _ => true) (fun _ _ => true) 5 (-1)).is_null = false ∧
      (create_board_alloc true (fun _ => true) (fun _ _ => true) 5 (-1)).is_undefined = true ∧
      (create_board_alloc true (fun n => decide (0 ≤ n)) (fun _ _ => true) 5 (-1)).is_null =
        true := by
  decide

/-- C13 as amended: `create_board` does not validate its dimensions and has no
error of its own for them; it tests the pointers `malloc` returns and nothing
else.  For `w <= 0` or `h <= 0` it never yields a board: it returns the null
pointer exactly when one of its allocation requests is refused (the one for the
board, the one for the `h` row pointers, or, with `h >= 0`, one for a row), and
in every other case it leaves defined behaviour. -/
theorem create_board_no_validation (board_ok : Bool) (rows_ok : Int → Bool)
    (row_ok : Nat → Int → Bool) (w h : Int) (hd : w ≤ 0 ∨ h ≤ 0) :
    ((create_board_alloc board_ok rows_ok row_ok w h).is_null = true ∨
        (create_board_alloc board_ok rows_ok row_ok w h).is_undefined = true) ∧
      ((create_board_alloc board_ok rows_ok row_ok w h).is_null = true ↔
        (board_ok = false ∨ rows_ok h = false ∨
          (0 ≤ h ∧ (List.range h.toNat).all (fun i => row_ok i w) = false))) := by
  have hn : matrix_set
      { w := w, h := h, player_i := 0, player_j := 0, enemy_i := w - 1, enemy_j := h - 1,
        matrix := create_matrix w h BOARD_DEFAULT_VALUE } 0 0 PLAYER_CHAR = none := by
    unfold matrix_set
    rw [if_neg (by simp only; omega)]
  unfold create_board_alloc create_matrix_alloc
  cases hb : board_ok with
  | false => simp [Outcome.is_null]
  | true =>
    cases hr : rows_ok h with
    | false => simp [Outcome.is_null]
    | true =>
      by_cases hh : h < 0
      · simp [hh, Outcome.is_null, Outcome.is_undefined]
      · cases ha : (List.range h.toNat).all (fun i => row_ok i w) with
        | false =>
          have h0 : 0 ≤ h := by omega
          simp [hh, h0, Outcome.is_null]
        | true => simp [hh, ha, hn, Outcome.is_null, Outcome.is_undefined]

/-- An instance of C13 as amended: `create_board(0, 5)` with every request
granted. -/
theorem create_board_no_validation_witness :
    (create_board_alloc true (fun _ => true) (fun _ _ => true) 0 5).is_null = true ∨
      (create_board_alloc true (fun _ => true) (fun _ _ => true) 0 5).is_undefined = true :=
  (create_board_no_validation true (fun _ => true) (fun _ _ => true) 0 5 (by decide)).1

/-- C14: `next2enemy` returns true exactly when
`|player_i - enemy_i| + |player_j - enemy_j| <= 1`, that is both for neighbouring
and for coinciding agents.  It is a function of the board that yields the flag
alone: it has no access to `last_mov` and hands back no board. -/
theorem next2enemy_iff (b : Board) :
    next2enemy b = true ↔ |b.player_i - b.enemy_i| + |b.player_j - b.enemy_j| ≤ 1 := by
  have e1 : c_abs (b.player_i - b.enemy_i) = |b.player_i - b.enemy_i| := by
    unfold c_abs; exact Int.natCast_natAbs _
  have e2 : c_abs (b.player_j - b.enemy_j) = |b.player_j - b.enemy_j| := by
    unfold c_abs; exact Int.natCast_natAbs _
  rw [next2enemy_eq_true_iff]
  unfold manhattan
  rw [e1, e2]

/-- C15, the claim as stated fails: `last_mov` starts at 2, the code of West, and
that bars East on the first step.  In the start state of the 3 wide, 2 high
game the East target `(2, 2)` of the enemy at `(2, 1)` passes the bounds check
`j + 1 < w`, but the samples 0, 1, 2, 3 give North, nothing, West, nothing; and
with the enemy at `(0, 0)` of a 3 by 3 board and `last_mov = 2` the East target
`(0, 1)` is on the board, but the four samples give nothing, South, nothing,
nothing. -/
theorem first_step_bars_east :
    (new_game 3 2).map (fun g =>
        (g.last_mov, enemy_cell g, decide (g.board.enemy_j + 1 < g.board.w))) =
        some (2, (2, 1), true) ∧
      (new_game 3 2).map (fun g =>
        [enemy_try g.board g.last_mov 0, enemy_try g.board g.last_mov 1,
          enemy_try g.board g.last_mov 2, enemy_try g.board g.last_mov 3]) =
        some [some (1, 1), none, some (2, 0), none] ∧
      in_board board_3x3 0 1 ∧
      [enemy_try board_3x3 2 0, enemy_try board_3x3 2 1, enemy_try board_3x3 2 2,
          enemy_try board_3x3 2 3] = [none, some (1, 0), none, none] := by
  decide

/-- C15 as amended: on the first enemy step of a simulation `last_mov` holds its
initial value 2, the code of West.  For every board and every enemy position on
it, each of North, South and West whose target cell passes the bounds check is
taken by the step on the sample 0, 1, 2 respectively, and East is taken on no
sample. -/
theorem first_step_directions (b : Board) (he : in_board b b.enemy_i b.enemy_j) :
    (0 ≤ b.enemy_i - 1 → ∃ g1, enemy_step { board := b, last_mov := 2 } 0 = some g1 ∧
        enemy_cell g1 = (b.enemy_i - 1, b.enemy_j)) ∧
      (b.enemy_i + 1 < b.h → ∃ g1, enemy_step { board := b, last_mov := 2 } 1 = some g1 ∧
        enemy_cell g1 = (b.enemy_i + 1, b.enemy_j)) ∧
      (0 ≤ b.enemy_j - 1 → ∃ g1, enemy_step { board := b, last_mov := 2 } 2 = some g1 ∧
        enemy_cell g1 = (b.enemy_i, b.enemy_j - 1)) ∧
      ∀ (p : Int) (g1 : Game), enemy_step { board := b, last_mov := 2 } p = some g1 →
        enemy_cell g1 ≠ (b.enemy_i, b.enemy_j + 1) := by
  refine ⟨?_, ?_, ?_, ?_⟩
  · intro h
    have ht : enemy_try b 2 0 = some (b.enemy_i - 1, b.enemy_j) := by
      unfold enemy_try
      simp only
      rw [if_pos ⟨by trivial, by omega, by omega⟩]
    obtain ⟨g1, h1, h2, _⟩ := enemy_step_of_try he ht
    exact ⟨g1, h1, h2⟩
  · intro h
    have ht : enemy_try b 2 1 = some (b.enemy_i + 1, b.enemy_j) := by
      unfold enemy_try
      simp only
      rw [if_neg (by omega), if_pos ⟨by trivial, by omega, by omega⟩]
    obtain ⟨g1, h1, h2, _⟩ := enemy_step_of_try he ht
    exact ⟨g1, h1, h2⟩
  · intro h
    have ht : enemy_try b 2 2 = some (b.enemy_i, b.enemy_j - 1) := by
      unfold enemy_try
      simp only
      rw [if_neg (by omega), if_neg (by omega), if_pos ⟨by trivial, by omega, by omega⟩]
    obtain ⟨g1, h1, h2, _⟩ := enemy_step_of_try he ht
    exact ⟨g1, h1, h2⟩
  · intro p g1 hs heq
    have ht := (enemy_step_some hs).1
    rw [heq] at ht
    unfold enemy_try at ht
    simp only at ht
    split_ifs at ht with h0 h1 h2 h3
    · have := congrArg Prod.snd (Option.some.inj ht); simp only at this; omega
    · have := congrArg Prod.snd (Option.some.inj ht); simp only at this; omega
    · have := congrArg Prod.snd (Option.some.inj ht); simp only at this; omega
    · exact h3.1 rfl

/-- An instance of C15 as amended: the enemy at `(0, 0)` of `board_3x3`, whose
South target is on the board. -/
theorem first_step_directions_witness :
    ∃ g1, enemy_step { board := board_3x3, last_mov := 2 } 1 = some g1 ∧
      enemy_cell g1 = (1, 0) :=
  (first_step_directions board_3x3 (by decide)).2.1 (by decide)

/-- C16, the code diverges: in the game `create_board(4, 4)` after the two
ticks on the samples `2, 0` the enemy stands at `(2, 2)` with `last_mov = 0`; on
the sample `1` the step goes East to `(2, 3)` (direction 3), and the value
recorded in `last_mov` is 1, the code of South. -/
theorem last_mov_not_direction :
    ((new_game 4 4).bind fun g => play 2 g [2, 0]).map
        (fun x => (enemy_cell x.1, x.1.last_mov)) = some ((2, 2), 0) ∧
      (((new_game 4 4).bind fun g => play 2 g [2, 0]).bind fun x =>
        enemy_step x.1 1).map (fun g => (enemy_cell g, g.last_mov)) = some ((2, 3), 1) ∧
      move_dir 2 2 2 3 = some 3 := by
  decide

/-- C17: when `move_enemy` returns, the player has not moved and the enemy
stands at Manhattan distance at least 2 from the player; it got there by a walk
of unit steps that went on after every step that left it on the player's cell
or next to it, and ended with the first step that left it farther away. -/
theorem move_enemy_keeps_away (g g1 : Game) (rs rs1 : List Nat)
    (hm : move_enemy g rs = some (g1, rs1)) :
    player_cell g1 = player_cell g ∧
      2 ≤ manhattan g.board.player_i g.board.player_j g1.board.enemy_i g1.board.enemy_j ∧
      next2enemy g1.board = false ∧
      enemy_walk g.board.player_i g.board.player_j (enemy_cell g) (enemy_cell g1) := by
  obtain ⟨_, _, a3, a4, a5, _⟩ := move_enemy_some rs g g1 rs1 hm
  refine ⟨?_, ?_, a5, move_enemy_walk rs g g1 rs1 hm⟩
  · unfold player_cell
    rw [a3, a4]
  · have h := (next2enemy_eq_true_iff g1.board).not.mp (by rw [a5]; simp)
    rw [a3, a4] at h
    omega

/-- An instance of C17: `move_enemy` on `game_2x2` and the samples `2, 3, 0, 3, 1`. -/
theorem move_enemy_keeps_away_witness :
    ∃ g1 rs1, move_enemy game_2x2 [2, 3, 0, 3, 1] = some (g1, rs1) ∧
      2 ≤ manhattan 0 0 g1.board.enemy_i g1.board.enemy_j :=
  ⟨_, _, rfl, (move_enemy_keeps_away game_2x2 _ [2, 3, 0, 3, 1] _ rfl).2.1⟩

/-- C18: on a square board with at least two rows, with player and enemy on the
board and on different cells, `wavefront` fills the field and `move_player`, run
on that field, moves the player to a cell whose Manhattan distance to the enemy
is exactly one less than that of the cell the player left; the field holds these
distances at both cells. -/
theorem move_player_closer (b : Board) (hsq : b.w = b.h) (h2 : 2 ≤ b.h)
    (hp : in_board b b.player_i b.player_j) (he : in_board b b.enemy_i b.enemy_j)
    (hne : ¬ (b.player_i = b.enemy_i ∧ b.player_j = b.enemy_j)) :
    ∃ pos b1, wavefront b (fresh_field b) = some pos ∧ move_player b pos = some b1 ∧
      field_at b pos b.player_i b.player_j =
        some (manhattan b.enemy_i b.enemy_j b.player_i b.player_j) ∧
      field_at b pos b1.player_i b1.player_j =
        some (manhattan b.enemy_i b.enemy_j b.player_i b.player_j - 1) ∧
      manhattan b.enemy_i b.enemy_j b1.player_i b1.player_j =
        manhattan b.enemy_i b.enemy_j b.player_i b.player_j - 1 := by
  obtain ⟨pos, hw, hfield⟩ := wavefront_field b (by omega) (by omega)
  have hval : ∀ i j, in_board b i j →
      field_at b pos i j =
          some ((fun c : Int × Int => manhattan b.enemy_i b.enemy_j c.1 c.2) (i, j)) ∧
        0 ≤ (fun c : Int × Int => manhattan b.enemy_i b.enemy_j c.1 c.2) (i, j) := by
    intro i j hin
    unfold in_board at hin
    exact ⟨hfield i j hin.1 hin.2.1 hin.2.2.1 (by omega), manhattan_nonneg _ _ _ _⟩
  obtain ⟨st, hc, hs⟩ := player_choice_scanned b pos
    (fun c : Int × Int => manhattan b.enemy_i b.enemy_j c.1 c.2) hsq hp hval
  rcases hs with ⟨e1, _, _⟩ | ⟨c, e1, _, _, hf⟩
  · exact absurd e1 (neighbours_ne_nil b hsq h2 hp)
  · rw [e1] at hc
    obtain ⟨hin, hadj⟩ := mem_neighbours (first_min_mem hf)
    obtain ⟨x, hx, hxv⟩ := closer_neighbour b hp he hne
    have hle := first_min_le hf hx
    simp only at hle
    have hge : manhattan b.enemy_i b.enemy_j b.player_i b.player_j - 1 ≤
        manhattan b.enemy_i b.enemy_j c.1 c.2 := by
      unfold manhattan c_abs
      omega
    have heq : manhattan b.enemy_i b.enemy_j c.1 c.2 =
        manhattan b.enemy_i b.enemy_j b.player_i b.player_j - 1 := by omega
    refine ⟨pos, _, hw, move_player_of_choice hc hin hp, (hval _ _ hp).1, ?_, heq⟩
    simp only
    rw [← heq]
    exact (hval _ _ hin).1

/-- An instance of C18: `board_3x3`, player at `(1, 1)`, enemy at `(0, 0)`. -/
theorem move_player_closer_witness :
    ∃ pos b1, wavefront board_3x3 (fresh_field board_3x3) = some pos ∧
      move_player board_3x3 pos = some b1 ∧
      manhattan 0 0 b1.player_i b1.player_j = manhattan 0 0 1 1 - 1 :=
  (move_player_closer board_3x3 (by decide) (by decide) (by decide) (by decide)
    (by decide)).imp fun _ h => h.imp fun _ h => ⟨h.1, h.2.1, h.2.2.2.2⟩

/-- C19: on a board with `w >= 2` and `h >= 2` and the enemy on it, whatever the
history value, one of the samples 0, 1, 2, 3 makes the inner loop of
`move_enemy` break with a move; on a board of one cell no sample ever does, and
`move_enemy` returns on no sample list. -/
theorem enemy_try_accepts (b : Board) (lm : Int) (he : in_board b b.enemy_i b.enemy_j) :
    (2 ≤ b.w → 2 ≤ b.h →
        ∃ p : Int, (p = 0 ∨ p = 1 ∨ p = 2 ∨ p = 3) ∧ (enemy_try b lm p).isSome = true) ∧
      (b.w = 1 → b.h = 1 →
        (∀ p : Int, enemy_try b lm p = none) ∧
          ∀ rs : List Nat, move_enemy { board := b, last_mov := lm } rs = none) := by
  unfold in_board at he
  constructor
  · intro hw hh
    by_cases h2 : lm = 2
    · by_cases hi : 0 ≤ b.enemy_i - 1
      · refine ⟨0, Or.inl rfl, ?_⟩
        unfold enemy_try
        simp only
        rw [if_pos ⟨by trivial, by omega, by omega⟩]
        rfl
      · refine ⟨1, Or.inr (Or.inl rfl), ?_⟩
        unfold enemy_try
        simp only
        rw [if_neg (by omega), if_pos ⟨by trivial, by omega, by omega⟩]
        rfl
    · by_cases hj : b.enemy_j + 1 < b.w
      · refine ⟨3, Or.inr (Or.inr (Or.inr rfl)), ?_⟩
        unfold enemy_try
        simp only
        rw [if_neg (by omega), if_neg (by omega), if_neg (by omega), if_pos ⟨h2, hj⟩]
        rfl
      · by_cases h3 : lm = 3
        · by_cases hi : 0 ≤ b.enemy_i - 1
          · refine ⟨0, Or.inl rfl, ?_⟩
            unfold enemy_try
            simp only
            rw [if_pos ⟨by trivial, by omega, by omega⟩]
            rfl
          · refine ⟨1, Or.inr (Or.inl rfl), ?_⟩
            unfold enemy_try
            simp only
            rw [if_neg (by omega), if_pos ⟨by trivial, by omega, by omega⟩]
            rfl
        · refine ⟨2, Or.inr (Or.inr (Or.inl rfl)), ?_⟩
          unfold enemy_try
          simp only
          rw [if_neg (by omega), if_neg (by omega), if_pos ⟨by trivial, h3, by omega⟩]
          rfl
  · intro hw hh
    have hnone : ∀ p : Int, enemy_try b lm p = none := by
      intro p
      unfold enemy_try
      simp only
      rw [if_neg (by omega), if_neg (by omega), if_neg (by omega), if_neg (by omega)]
    refine ⟨hnone, ?_⟩
    intro rs
    induction rs with
    | nil => rfl
    | cons r rs ih =>
      unfold move_enemy
      simp only
      rw [hnone]
      exact ih

/-- An instance of C19: `board_3x3` with history 2, and `board_1x1`. -/
theorem enemy_try_accepts_witness :
    (∃ p : Int, (p = 0 ∨ p = 1 ∨ p = 2 ∨ p = 3) ∧ (enemy_try board_3x3 2 p).isSome = true) ∧
      ((∀ p : Int, enemy_try board_1x1 2 p = none) ∧
        ∀ rs : List Nat, move_enemy { board := board_1x1, last_mov := 2 } rs = none) :=
  ⟨(enemy_try_accepts board_3x3 2 (by decide)).1 (by decide) (by decide),
    (enemy_try_accepts board_1x1 2 (by decide)).2 rfl rfl⟩

end Wavefront
